import Mathlib

/-!
Verification of the pbrt sample-generation and buffer-cache core.

The definitions below are shallow embeddings of the corresponding C++
code (src/util/rng.h, src/util/buffercache.h, src/samplers/maxmin.h).
Machine integers are modelled as natural numbers reduced modulo 2^w at
the operations where the C++ type would wrap.  Components whose source
is not part of this excerpt (the PixelSampler base class, the
low-discrepancy helpers ReverseBits32 / MultiplyGenerator, HashBuffer)
are modelled from the specification and marked as such.
-/

namespace PbrtSpec

/-- Modulus of 64-bit unsigned arithmetic. -/
def M64 : ℕ := 2 ^ 64

/-- Modulus of 32-bit unsigned arithmetic. -/
def M32 : ℕ := 2 ^ 32

/-- PCG32_DEFAULT_STATE from rng.h. -/
def PCG32_DEFAULT_STATE : ℕ := 0x853c49e6748fea9b

/-- PCG32_DEFAULT_STREAM from rng.h. -/
def PCG32_DEFAULT_STREAM : ℕ := 0xda3e39cb94b95bdb

/-- PCG32_MULT from rng.h. -/
def PCG32_MULT : ℕ := 0x5851f42d4c957f2d

/-- The (state, inc) pair of pbrt's RNG class. -/
structure RNG where
  state : ℕ
  inc : ℕ
deriving Repr, DecidableEq

/-- Default constructor RNG::RNG(). -/
def RNG.default : RNG := ⟨PCG32_DEFAULT_STATE, PCG32_DEFAULT_STREAM⟩

/-- One LCG state update, as performed by RNG::Uniform(uint32_t). -/
def lcgStep (inc s : ℕ) : ℕ := (s * PCG32_MULT + inc) % M64

/-- The state after n LCG steps. -/
def lcgIter (inc : ℕ) : ℕ → ℕ → ℕ
  | 0, s => s
  | n + 1, s => lcgStep inc (lcgIter inc n s)

/-- RNG::Uniform(uint32_t): returns the 32-bit output and the stepped RNG. -/
def RNG.uniformUInt32 (r : RNG) : ℕ × RNG :=
  let oldstate := r.state
  let state2 := lcgStep r.inc oldstate
  let xorshifted := (((oldstate >>> 18) ^^^ oldstate) >>> 27) % M32
  let rot := oldstate >>> 59
  let out := ((xorshifted >>> rot) ||| ((xorshifted <<< ((M32 - rot) % 32)) % M32)) % M32
  (out, { r with state := state2 })

/-- RNG::Uniform(uint64_t): two 32-bit draws packed together. -/
def RNG.uniformUInt64 (r : RNG) : ℕ × RNG :=
  let (v0, r1) := r.uniformUInt32
  let (v1, r2) := r1.uniformUInt32
  ((((v0 <<< 32) % M64) ||| v1) % M64, r2)

/-- RNG::SetSequence(sequenceIndex, seed). -/
def setSequence (sequenceIndex seed : ℕ) : RNG :=
  let inc := ((sequenceIndex <<< 1) % M64) ||| 1
  let r1 : RNG := { state := 0, inc := inc }
  let r2 := r1.uniformUInt32.2
  let r3 : RNG := { r2 with state := (r2.state + seed) % M64 }
  r3.uniformUInt32.2

/-- The loop body of RNG::Advance: composition-by-squaring of affine maps. -/
def advanceLoop (delta curMult curPlus accMult accPlus : ℕ) : ℕ × ℕ :=
  if h : delta = 0 then (accMult, accPlus)
  else
    let accMult2 := if delta % 2 = 1 then (accMult * curMult) % M64 else accMult
    let accPlus2 := if delta % 2 = 1 then (accPlus * curMult + curPlus) % M64 else accPlus
    advanceLoop (delta / 2) ((curMult * curMult) % M64) (((curMult + 1) * curPlus) % M64)
      accMult2 accPlus2
termination_by delta
decreasing_by exact Nat.div_lt_self (Nat.pos_of_ne_zero h) one_lt_two

/-- RNG::Advance(idelta); delta is the uint64 reinterpretation of idelta. -/
def RNG.advance (r : RNG) (delta : ℕ) : RNG :=
  let mp := advanceLoop delta PCG32_MULT r.inc 1 0
  { r with state := (mp.1 * r.state + mp.2) % M64 }

/-- The bit-by-bit walk of RNG::operator-.  The fuel argument bounds the
number of loop iterations; `none` models a non-terminating walk or a
failed internal CHECK. -/
def subLoop (state : ℕ) : ℕ → ℕ → ℕ → ℕ → ℕ → ℕ → Option ℕ
  | 0, _, _, curState, _, distance =>
      if state = curState then some distance else none
  | fuel + 1, curMult, curPlus, curState, theBit, distance =>
      if state = curState then some distance
      else
        if state &&& theBit ≠ curState &&& theBit then
          if state &&& theBit ≠ ((curState * curMult + curPlus) % M64) &&& theBit then none
          else subLoop state fuel ((curMult * curMult) % M64)
            (((curMult + 1) * curPlus) % M64) ((curState * curMult + curPlus) % M64)
            ((theBit <<< 1) % M64) (distance ||| theBit)
        else
          if state &&& theBit ≠ curState &&& theBit then none
          else subLoop state fuel ((curMult * curMult) % M64)
            (((curMult + 1) * curPlus) % M64) curState ((theBit <<< 1) % M64) distance

/-- RNG::operator-(other): number of steps from other to this, on the
same stream.  Mismatched streams hit CHECK_EQ, modelled as `none`. -/
def RNG.sub (r other : RNG) : Option ℕ :=
  if r.inc ≠ other.inc then none
  else subLoop r.state 64 PCG32_MULT r.inc other.state 1 0

/-- Rejection threshold of RNG::Uniform(b): `(~b + 1u) % b` in w-bit
unsigned arithmetic. -/
def uniformThreshold (w b : ℕ) : ℕ := (((2 ^ w - 1 - b) + 1) % 2 ^ w) % b

/-- The rejection loop of RNG::Uniform(b) over an abstract stream of raw
w-bit draws; draw i is the i-th raw variate.  Fuel bounds the redraws. -/
def uniformBoundedFrom (w b : ℕ) (draws : ℕ → ℕ) : ℕ → ℕ → Option ℕ
  | _, 0 => none
  | i, fuel + 1 =>
      if uniformThreshold w b ≤ draws i then some (draws i % b)
      else uniformBoundedFrom w b draws (i + 1) fuel

/-- Advance leaves the stream selector unchanged. -/
lemma advance_inc (r : RNG) (d : ℕ) : (r.advance d).inc = r.inc := rfl

/-- A 32-bit draw leaves the stream selector unchanged. -/
lemma uniformUInt32_inc (r : RNG) : r.uniformUInt32.2.inc = r.inc := rfl

/-- A 64-bit draw leaves the stream selector unchanged. -/
lemma uniformUInt64_inc (r : RNG) : r.uniformUInt64.2.inc = r.inc := rfl

/-- Setting the low bit makes a number odd. -/
lemma lor_one_mod_two (x : ℕ) : (x ||| 1) % 2 = 1 := by
  have h : (x ||| 1).testBit 0 = true := by simp [Nat.testBit_lor]
  simp only [Nat.testBit_zero, decide_eq_true_eq] at h
  exact h

/-- The RNG states reachable through the public interface: the default
constructor, SetSequence (hence both explicit constructors), Advance and
the Uniform draws.  The difference operator does not mutate its
operands. -/
inductive RNGReach : RNG → Prop
  | mk_default : RNGReach RNG.default
  | mk_set (sequenceIndex seed : ℕ) : RNGReach (setSequence sequenceIndex seed)
  | mk_advance (r : RNG) (d : ℕ) : RNGReach r → RNGReach (r.advance d)
  | mk_u32 (r : RNG) : RNGReach r → RNGReach r.uniformUInt32.2
  | mk_u64 (r : RNG) : RNGReach r → RNGReach r.uniformUInt64.2

/-- Claim C8: the RNG field inc is odd in every reachable RNG state: it is
odd after default construction and after every SetSequence call, and
Advance, the difference operator and the Uniform draws leave it
unchanged. -/
theorem rng_inc_always_odd (r : RNG) (h : RNGReach r) : r.inc % 2 = 1 := by
  induction h with
  | mk_default => decide
  | mk_set sequenceIndex seed => exact lor_one_mod_two _
  | mk_advance r d _ ih => rwa [advance_inc]
  | mk_u32 r _ ih => rwa [uniformUInt32_inc]
  | mk_u64 r _ ih => rwa [uniformUInt64_inc]

/-- Witness for rng_inc_always_odd at the default-constructed RNG. -/
theorem rng_inc_always_odd_witness : RNG.default.inc % 2 = 1 :=
  rng_inc_always_odd RNG.default RNGReach.mk_default

/-- Claim C10: SetSequence discards bit 63 of the sequence index, so the
RNGs constructed from sequence indices i and i + 2^63 with the same
explicit seed have identical (state, inc) and hence identical output
streams. -/
theorem rng_sequence_index_top_bit_alias (i s : ℕ) :
    setSequence (i + 2 ^ 63) s = setSequence i s := by
  have h : (((i + 2 ^ 63) <<< 1) % M64) = ((i <<< 1) % M64) := by
    rw [Nat.shiftLeft_eq, Nat.shiftLeft_eq,
      show (i + 2 ^ 63) * 2 ^ 1 = i * 2 ^ 1 + 2 ^ 64 by ring]
    exact Nat.add_mod_right _ _
  simp only [setSequence, h]

/-- Two numbers with the same residue inside a window of length b are
equal. -/
lemma eq_of_mod_eq_of_mem_window {b s r q : ℕ} (h1 : s ≤ r) (h2 : r < s + b)
    (h3 : s ≤ q) (h4 : q < s + b) (h5 : r % b = q % b) : r = q := by
  rcases le_total r q with hle | hle
  · have hd : b ∣ q - r := (Nat.modEq_iff_dvd' hle).mp h5
    have h0 : q - r = 0 := Nat.eq_zero_of_dvd_of_lt hd (by omega)
    omega
  · have hd : b ∣ r - q := (Nat.modEq_iff_dvd' hle).mp h5.symm
    have h0 : r - q = 0 := Nat.eq_zero_of_dvd_of_lt hd (by omega)
    omega

/-- A window of b consecutive integers contains exactly one number of
each residue class mod b. -/
lemma card_Ico_filter_mod_block (b v s : ℕ) (hv : v < b) :
    ((Finset.Ico s (s + b)).filter (fun r => r % b = v)).card = 1 := by
  have hb : 0 < b := by omega
  have hj : (v + b - s % b) % b < b := Nat.mod_lt _ hb
  have hsb : s % b < b := Nat.mod_lt _ hb
  have hmem : (s + (v + b - s % b) % b) % b = v := by
    have hsd := Nat.div_add_mod s b
    rw [Nat.add_mod_mod,
      show s + (v + b - s % b) = b * (s / b) + (v + b) by omega,
      Nat.mul_add_mod, Nat.add_mod_right]
    exact Nat.mod_eq_of_lt hv
  rw [Finset.card_eq_one]
  refine ⟨s + (v + b - s % b) % b, ?_⟩
  ext r
  simp only [Finset.mem_filter, Finset.mem_Ico, Finset.mem_singleton]
  constructor
  · rintro ⟨⟨h1, h2⟩, h3⟩
    exact eq_of_mod_eq_of_mem_window h1 h2 (by omega) (by omega) (by rw [h3, hmem])
  · rintro rfl
    exact ⟨⟨by omega, by omega⟩, hmem⟩

/-- An interval of length k * b contains exactly k numbers of each
residue class mod b. -/
lemma card_Ico_filter_mod (b v s k : ℕ) (hv : v < b) :
    ((Finset.Ico s (s + k * b)).filter (fun r => r % b = v)).card = k := by
  induction k with
  | zero => simp
  | succ k ih =>
      have hsplit : Finset.Ico s (s + (k + 1) * b) =
          Finset.Ico s (s + k * b) ∪ Finset.Ico (s + k * b) (s + k * b + b) := by
        rw [Finset.Ico_union_Ico_eq_Ico (by omega) (by omega)]
        congr 1
        ring
      rw [hsplit, Finset.filter_union, Finset.card_union_of_disjoint, ih,
        card_Ico_filter_mod_block b v _ hv]
      exact Finset.disjoint_filter_filter
        (Finset.Ico_disjoint_Ico_consecutive s (s + k * b) (s + k * b + b))

/-- Claim C3: RNG::Uniform(b) computes the rejection threshold
t = (2^w - b) mod b, every returned value lies in [0, b), and every
value of [0, b) has exactly (2^w - t) / b accepted raw preimages, the
same count for each, so the output is exactly uniform over [0, b). -/
theorem rng_uniform_bounded_unbiased (w b : ℕ) (hb : 0 < b) (hbw : b < 2 ^ w) :
    uniformThreshold w b = (2 ^ w - b) % b
  ∧ (∀ draws i fuel v, uniformBoundedFrom w b draws i fuel = some v → v < b)
  ∧ (∀ v, v < b →
      ((Finset.Ico (uniformThreshold w b) (2 ^ w)).filter (fun r => r % b = v)).card =
        (2 ^ w - uniformThreshold w b) / b) := by
  have ht : uniformThreshold w b = (2 ^ w - b) % b := by
    unfold uniformThreshold
    rw [show 2 ^ w - 1 - b + 1 = 2 ^ w - b by omega,
      Nat.mod_eq_of_lt (show 2 ^ w - b < 2 ^ w by omega)]
  refine ⟨ht, ?_, ?_⟩
  · intro draws i fuel v hv
    induction fuel generalizing i with
    | zero => simp [uniformBoundedFrom] at hv
    | succ fuel ih =>
        unfold uniformBoundedFrom at hv
        by_cases hcase : uniformThreshold w b ≤ draws i
        · simp only [if_pos hcase, Option.some.injEq] at hv
          exact hv ▸ Nat.mod_lt _ hb
        · simp only [if_neg hcase] at hv
          exact ih _ hv
  · intro v hv
    have htlt : uniformThreshold w b < b := ht ▸ Nat.mod_lt _ hb
    have hdvd : b ∣ (2 ^ w - uniformThreshold w b) := by
      rw [ht]
      have hq := Nat.div_add_mod (2 ^ w - b) b
      refine ⟨(2 ^ w - b) / b + 1, ?_⟩
      rw [Nat.mul_add, Nat.mul_one]
      omega
    obtain ⟨k, hk⟩ := hdvd
    have hrange : 2 ^ w = uniformThreshold w b + k * b := by
      rw [Nat.mul_comm k b, ← hk]
      omega
    rw [hrange,
      show uniformThreshold w b + k * b - uniformThreshold w b = k * b by omega,
      Nat.mul_div_cancel k hb]
    exact card_Ico_filter_mod b v _ k hv

/-- Witness for rng_uniform_bounded_unbiased at w = 4, b = 6. -/
theorem rng_uniform_bounded_unbiased_witness :
    (0 : ℕ) < 6 ∧ 6 < 2 ^ 4 ∧ uniformThreshold 4 6 = (2 ^ 4 - 6) % 6 ∧
      ((Finset.Ico (uniformThreshold 4 6) (2 ^ 4)).filter (fun r => r % 6 = 1)).card =
        (2 ^ 4 - uniformThreshold 4 6) / 6 :=
  ⟨by decide, by decide, (rng_uniform_bounded_unbiased 4 6 (by decide) (by decide)).1,
    (rng_uniform_bounded_unbiased 4 6 (by decide) (by decide)).2.2 1 (by decide)⟩

/-- Geometric sum 1 + a + ... + a^(n-1) for a = PCG32_MULT. -/
def geomS : ℕ → ℕ
  | 0 => 0
  | n + 1 => PCG32_MULT * geomS n + 1

lemma geomS_succ (n : ℕ) : geomS (n + 1) = PCG32_MULT * geomS n + 1 := rfl

lemma pow_eq_geomS (n : ℕ) : PCG32_MULT ^ n = (PCG32_MULT - 1) * geomS n + 1 := by
  obtain ⟨c, hc⟩ : ∃ c, PCG32_MULT = c + 1 := ⟨PCG32_MULT - 1, by decide⟩
  rw [hc, Nat.add_sub_cancel]
  induction n with
  | zero => simp [geomS]
  | succ n ih =>
      rw [pow_succ, ih, geomS_succ, hc]
      ring

lemma geomS_succ_right (n : ℕ) : geomS (n + 1) = geomS n + PCG32_MULT ^ n := by
  induction n with
  | zero => simp [geomS]
  | succ n ih =>
      have h1 : PCG32_MULT * geomS n + 1 = geomS n + PCG32_MULT ^ n := by
        rw [← geomS_succ, ih]
      rw [geomS_succ, ih, pow_succ]
      ring_nf
      ring_nf at h1
      omega

lemma geomS_add (m n : ℕ) : geomS (m + n) = geomS m * PCG32_MULT ^ n + geomS n := by
  induction m with
  | zero => simp [geomS]
  | succ m ih =>
      rw [show m + 1 + n = (m + n) + 1 by ring, geomS_succ_right, ih,
        geomS_succ_right, pow_add]
      ring

lemma geomS_two_mul (k : ℕ) : geomS (2 * k) = geomS k * (PCG32_MULT ^ k + 1) := by
  rw [two_mul, geomS_add]
  ring

lemma geomS_mod_two (n : ℕ) : geomS n % 2 = n % 2 := by
  induction n with
  | zero => rfl
  | succ n ih =>
      rw [geomS_succ, Nat.add_mod, Nat.mul_mod, show PCG32_MULT % 2 = 1 by decide,
        one_mul, Nat.mod_mod_of_dvd _ dvd_rfl, ih]
      omega

lemma pcg_pow_mod_four (k : ℕ) : PCG32_MULT ^ k % 4 = 1 := by
  induction k with
  | zero => rfl
  | succ k ih =>
      rw [pow_succ, Nat.mul_mod, ih, show PCG32_MULT % 4 = 1 by decide]

/-- The 2-adic valuation of the geometric sum matches that of its length:
if 2^i divides e then geomS e = 2^i * u with u of the same parity as
e / 2^i. -/
lemma geomS_val (i : ℕ) : ∀ e, 2 ^ i ∣ e →
    ∃ u, geomS e = 2 ^ i * u ∧ u % 2 = e / 2 ^ i % 2 := by
  induction i with
  | zero =>
      intro e _
      exact ⟨geomS e, by simp, by simp [geomS_mod_two]⟩
  | succ i ih =>
      intro e hdvd
      obtain ⟨m, hm⟩ := hdvd
      have hk : e = 2 * (2 ^ i * m) := by rw [hm, pow_succ]; ring
      set k := 2 ^ i * m with hkdef
      obtain ⟨u, hu, hpar⟩ := ih k ⟨m, rfl⟩
      have hq := Nat.div_add_mod (PCG32_MULT ^ k) 4
      have hq1 := pcg_pow_mod_four k
      have hsplit : PCG32_MULT ^ k + 1 = 2 * (2 * (PCG32_MULT ^ k / 4) + 1) := by omega
      refine ⟨u * (2 * (PCG32_MULT ^ k / 4) + 1), ?_, ?_⟩
      · rw [hk, geomS_two_mul, hu, hsplit, pow_succ]
        ring
      · have hX : (2 * (PCG32_MULT ^ k / 4) + 1) % 2 = 1 := by omega
        rw [Nat.mul_mod, hX, Nat.mul_one, Nat.mod_mod_of_dvd _ dvd_rfl, hpar, hk,
          pow_succ', Nat.mul_div_mul_left k (2 ^ i) two_pos]

lemma lcgIter_lt (inc e s : ℕ) (hs : s < M64) : lcgIter inc e s < M64 := by
  cases e with
  | zero => exact hs
  | succ e => exact Nat.mod_lt _ (by decide)

lemma lcgIter_add (inc m n s : ℕ) :
    lcgIter inc (m + n) s = lcgIter inc m (lcgIter inc n s) := by
  induction m with
  | zero => simp [lcgIter]
  | succ m ih => rw [show m + 1 + n = (m + n) + 1 by ring, lcgIter, ih, lcgIter]

/-- Closed form of the iterated LCG step. -/
lemma lcgIter_closed (inc e s : ℕ) (hs : s < M64) :
    lcgIter inc e s = (PCG32_MULT ^ e * s + inc * geomS e) % M64 := by
  induction e with
  | zero => simp [lcgIter, geomS, Nat.mod_eq_of_lt hs]
  | succ e ih =>
      rw [lcgIter, lcgStep, ih]
      have hmod : ((PCG32_MULT ^ e * s + inc * geomS e) % M64 * PCG32_MULT + inc) % M64 =
          ((PCG32_MULT ^ e * s + inc * geomS e) * PCG32_MULT + inc) % M64 :=
        ((Nat.mod_modEq _ M64).mul_right PCG32_MULT).add_right inc
      rw [hmod, show (PCG32_MULT ^ e * s + inc * geomS e) * PCG32_MULT + inc =
        PCG32_MULT ^ (e + 1) * s + inc * geomS (e + 1) by rw [geomS_succ, pow_succ]; ring]

lemma testBit_eq_of_mod_eq {x y n i : ℕ} (h : x % 2 ^ n = y % 2 ^ n) (hi : i < n) :
    x.testBit i = y.testBit i := by
  have e1 : (x % 2 ^ n).testBit i = (y % 2 ^ n).testBit i := by rw [h]
  have hd : decide (i < n) = true := decide_eq_true hi
  rwa [Nat.testBit_mod_two_pow, Nat.testBit_mod_two_pow, hd, Bool.true_and,
    Bool.true_and] at e1

lemma testBit_add_two_pow_self (x i : ℕ) : (x + 2 ^ i).testBit i = ! x.testBit i := by
  rw [Nat.testBit_to_div_mod, Nat.testBit_to_div_mod,
    Nat.add_div_right _ (Nat.pos_pow_of_pos i (by norm_num))]
  rcases Nat.mod_two_eq_zero_or_one (x / 2 ^ i) with h | h
  · rw [show (x / 2 ^ i + 1) % 2 = 1 by omega, h]
    decide
  · rw [show (x / 2 ^ i + 1) % 2 = 0 by omega, h]
    decide

lemma and_two_pow_eq_iff (x y i : ℕ) :
    (x &&& 2 ^ i = y &&& 2 ^ i) ↔ (x.testBit i = y.testBit i) := by
  rw [Nat.and_two_pow, Nat.and_two_pow]
  constructor
  · intro h
    have hp : (0:ℕ) < 2 ^ i := Nat.pos_pow_of_pos i (by norm_num)
    cases hx : x.testBit i <;> cases hy : y.testBit i <;> rw [hx, hy] at h <;>
      first
        | rfl
        | (exfalso; simp only [Bool.toNat_false, Bool.toNat_true, Nat.zero_mul,
            Nat.one_mul] at h; omega)
  · intro h
    rw [h]

lemma lor_two_pow_of_lt {a i : ℕ} (h : a < 2 ^ i) : a ||| 2 ^ i = a + 2 ^ i := by
  apply Nat.eq_of_testBit_eq
  intro j
  rw [Nat.testBit_lor]
  rcases lt_trichotomy j i with hj | hj | hj
  · have h2 : (2 ^ i).testBit j = false := by
      simp only [Nat.testBit_two_pow]
      exact decide_eq_false (by omega)
    rw [h2, Bool.or_false, Nat.testBit_to_div_mod, Nat.testBit_to_div_mod]
    have hd : (a + 2 ^ i) / 2 ^ j = a / 2 ^ j + 2 ^ (i - j) := by
      rw [show (2:ℕ) ^ i = 2 ^ (i - j) * 2 ^ j by
        rw [← pow_add]; congr 1; omega]
      rw [Nat.add_mul_div_right _ _ (Nat.pos_pow_of_pos j (by norm_num))]
    have h3 : (2:ℕ) ^ (i - j) % 2 = 0 := by
      rcases Nat.exists_eq_succ_of_ne_zero (show i - j ≠ 0 by omega) with ⟨k, hk⟩
      rw [hk, pow_succ, Nat.mul_mod_left]
    rw [hd, show (a / 2 ^ j + 2 ^ (i - j)) % 2 = a / 2 ^ j % 2 by omega]
  · subst hj
    have h2 : ((2 : ℕ) ^ j).testBit j = true := by simp [Nat.testBit_two_pow]
    rw [h2, Bool.or_true, Nat.testBit_to_div_mod]
    have hd : (a + 2 ^ j) / 2 ^ j = a / 2 ^ j + 1 :=
      Nat.add_div_right _ (Nat.pos_pow_of_pos j (by norm_num))
    rw [hd, Nat.div_eq_of_lt h]
    decide
  · have h2 : (2 ^ i).testBit j = false := by
      simp only [Nat.testBit_two_pow]
      exact decide_eq_false (by omega)
    have hlt : a + 2 ^ i < 2 ^ j := by
      have h4 : (2:ℕ) ^ (i + 1) ≤ 2 ^ j := Nat.pow_le_pow_right (by norm_num) (by omega)
      have h5 : a + 2 ^ i < 2 ^ (i + 1) := by rw [pow_succ]; omega
      omega
    rw [h2, Bool.or_false, Nat.testBit_lt_two_pow hlt,
      Nat.testBit_lt_two_pow (by omega : a < 2 ^ j)]

/-- Behaviour of e iterated LCG steps on the low i+1 state bits, for e a
multiple of 2^i: the bits below i are unchanged and bit i is flipped
exactly when e / 2^i is odd. -/
lemma lcgIter_mod_pow (inc s e i : ℕ) (hinc : inc % 2 = 1) (hs : s < M64) (hi : i < 64)
    (hdvd : 2 ^ i ∣ e) :
    lcgIter inc e s % 2 ^ (i + 1) = (s + 2 ^ i * (e / 2 ^ i % 2)) % 2 ^ (i + 1) := by
  obtain ⟨u, hu, hpar⟩ := geomS_val i e hdvd
  have hw : ((PCG32_MULT - 1) * s + inc) % 2 = 1 := by
    rw [Nat.add_mod, Nat.mul_mod, show (PCG32_MULT - 1) % 2 = 0 by decide,
      Nat.zero_mul, Nat.zero_mod, Nat.zero_add, Nat.mod_mod_of_dvd _ dvd_rfl, hinc]
  set w := (PCG32_MULT - 1) * s + inc with hwdef
  have hform : PCG32_MULT ^ e * s + inc * geomS e = s + geomS e * w := by
    rw [pow_eq_geomS, hwdef]; ring
  have hdvd64 : (2 : ℕ) ^ (i + 1) ∣ M64 := pow_dvd_pow 2 (by omega)
  rw [lcgIter_closed inc e s hs, Nat.mod_mod_of_dvd _ hdvd64, hform, hu]
  have hparw : (u * w) % 2 = e / 2 ^ i % 2 := by
    rw [Nat.mul_mod, hw, Nat.mul_one, Nat.mod_mod_of_dvd _ dvd_rfl, hpar]
  have hsplit := Nat.div_add_mod (u * w) 2
  set q := u * w / 2 with hq
  set rr := u * w % 2 with hr
  rw [show s + 2 ^ i * u * w = s + 2 ^ i * rr + 2 ^ (i + 1) * q by
      rw [mul_assoc, ← hsplit, Nat.mul_add, pow_succ]; ring,
    Nat.add_mul_mod_self_left, hparw]

/-- Every positive natural splits as an exact power of two times an odd
cofactor. -/
lemma exists_two_pow_factor : ∀ e, e ≠ 0 →
    ∃ i, 2 ^ i ∣ e ∧ e / 2 ^ i % 2 = 1 ∧ 2 ^ i ≤ e := by
  intro e
  induction e using Nat.strong_induction_on with
  | _ e ih =>
      intro he0
      rcases Nat.mod_two_eq_zero_or_one e with hpar | hpar
      · have he2 : e / 2 ≠ 0 := by omega
        obtain ⟨i, h1, h2, h3⟩ := ih (e / 2) (by omega) he2
        refine ⟨i + 1, ?_, ?_, ?_⟩
        · obtain ⟨m, hm⟩ := h1
          refine ⟨m, ?_⟩
          rw [show e = 2 * (e / 2) by omega, hm, pow_succ']
          ring
        · rw [pow_succ', ← Nat.div_div_eq_div_mul]
          exact h2
        · have h4 : (2:ℕ) ^ (i + 1) ≤ 2 * (e / 2) := by rw [pow_succ']; omega
          omega
      · exact ⟨0, one_dvd e, by simpa using hpar, by omega⟩

/-- A positive number of LCG steps below the period moves the state. -/
lemma lcgIter_ne_self (inc s e : ℕ) (hinc : inc % 2 = 1) (hs : s < M64)
    (he0 : e ≠ 0) (he : e < M64) : lcgIter inc e s ≠ s := by
  obtain ⟨i, hdvd, hodd, hle⟩ := exists_two_pow_factor e he0
  have hi : i < 64 := by
    have h1 : (2:ℕ) ^ i < 2 ^ 64 := lt_of_le_of_lt hle he
    exact (Nat.pow_lt_pow_iff_right one_lt_two).mp h1
  intro heq
  have hmp := lcgIter_mod_pow inc s e i hinc hs hi hdvd
  rw [heq, hodd, Nat.mul_one] at hmp
  have h1 : s.testBit i = (s + 2 ^ i).testBit i :=
    testBit_eq_of_mod_eq hmp (by omega)
  rw [testBit_add_two_pow_self] at h1
  cases hb : s.testBit i <;> rw [hb] at h1 <;> exact Bool.noConfusion h1

/-- The affine map (curMult, curPlus) held by the loops applies as n LCG
steps. -/
lemma affine_step (inc n s : ℕ) (hs : s < M64) :
    (s * (PCG32_MULT ^ n % M64) + (inc * geomS n) % M64) % M64 = lcgIter inc n s := by
  rw [lcgIter_closed inc n s hs]
  calc (s * (PCG32_MULT ^ n % M64) + (inc * geomS n) % M64) % M64
      = (s * PCG32_MULT ^ n + inc * geomS n) % M64 :=
        ((Nat.mod_modEq _ M64).mul_left s).add (Nat.mod_modEq _ M64)
    _ = (PCG32_MULT ^ n * s + inc * geomS n) % M64 := by rw [Nat.mul_comm s]

/-- Squaring curMult doubles the represented step count. -/
lemma square_mult_update (n : ℕ) :
    (PCG32_MULT ^ n % M64 * (PCG32_MULT ^ n % M64)) % M64 =
      PCG32_MULT ^ (2 * n) % M64 := by
  rw [← Nat.mul_mod, two_mul, pow_add]

/-- The curPlus update (curMult + 1) * curPlus doubles the represented
step count. -/
lemma plus_update (inc n : ℕ) :
    ((PCG32_MULT ^ n % M64 + 1) * ((inc * geomS n) % M64)) % M64 =
      (inc * geomS (2 * n)) % M64 := by
  have h1 : ((PCG32_MULT ^ n % M64 + 1) * ((inc * geomS n) % M64)) % M64 =
      ((PCG32_MULT ^ n + 1) * (inc * geomS n)) % M64 :=
    ((Nat.mod_modEq _ _).add_right 1).mul (Nat.mod_modEq _ _)
  rw [h1, geomS_two_mul]
  congr 1
  ring

/-- Doubling theBit modulo 2^64. -/
lemma theBit_update (i : ℕ) : ((2 ^ i) <<< 1) % M64 = 2 ^ (i + 1) % M64 := by
  rw [Nat.shiftLeft_eq, pow_one, ← pow_succ]

/-- Main invariant of the walk in RNG::operator-: started at bit i with
an exact representation of 2^i steps, a current state e steps behind the
target and an accumulated distance below 2^i, the loop returns
distance + e. -/
lemma subLoop_invariant : ∀ fuel i inc sB dist e,
    i + fuel = 64 →
    inc % 2 = 1 →
    sB < M64 →
    e < M64 →
    2 ^ i ∣ e →
    dist < 2 ^ i →
    subLoop (lcgIter inc e sB) fuel (PCG32_MULT ^ 2 ^ i % M64)
      ((inc * geomS (2 ^ i)) % M64) sB (2 ^ i % M64) dist = some (dist + e) := by
  intro fuel
  induction fuel with
  | zero =>
      intro i inc sB dist e hif hinc hsB he hdvd hdist
      have hi : i = 64 := by omega
      subst hi
      have he0 : e = 0 := Nat.eq_zero_of_dvd_of_lt hdvd he
      subst he0
      simp [subLoop, lcgIter]
  | succ fuel ih =>
      intro i inc sB dist e hif hinc hsB he hdvd hdist
      have hi : i < 64 := by omega
      have hpow : (2:ℕ) ^ i < M64 := Nat.pow_lt_pow_right one_lt_two hi
      have hbit : (2:ℕ) ^ i % M64 = 2 ^ i := Nat.mod_eq_of_lt hpow
      by_cases he0 : e = 0
      · subst he0
        simp [subLoop, lcgIter]
      · have hneq : lcgIter inc e sB ≠ sB := lcgIter_ne_self inc sB e hinc hsB he0 he
        have hmp := lcgIter_mod_pow inc sB e i hinc hsB hi hdvd
        obtain ⟨q, hq⟩ := hdvd
        have hqd : e / 2 ^ i = q := by
          rw [hq, Nat.mul_div_cancel_left q (Nat.pos_pow_of_pos i (by norm_num))]
        rw [subLoop, if_neg hneq, hbit]
        rcases Nat.mod_two_eq_zero_or_one (e / 2 ^ i) with hev | hod
        · -- bit i of e is clear: no update this round
          rw [hev, Nat.mul_zero, Nat.add_zero] at hmp
          have htb : (lcgIter inc e sB).testBit i = sB.testBit i :=
            testBit_eq_of_mod_eq hmp (by omega)
          have heq2 : lcgIter inc e sB &&& 2 ^ i = sB &&& 2 ^ i :=
            (and_two_pow_eq_iff _ _ i).mpr htb
          rw [if_neg (not_not_intro heq2), if_neg (not_not_intro heq2),
            square_mult_update, plus_update, theBit_update,
            show 2 * 2 ^ i = 2 ^ (i + 1) from (pow_succ' 2 i).symm]
          rw [hqd] at hev
          obtain ⟨m, hm⟩ : ∃ m, q = 2 * m := ⟨q / 2, by omega⟩
          have hdvd2 : 2 ^ (i + 1) ∣ e := by
            refine ⟨m, ?_⟩
            rw [hq, hm, pow_succ']
            ring
          exact ih (i + 1) inc sB dist e (by omega) hinc hsB he hdvd2
            (lt_trans hdist (Nat.pow_lt_pow_right one_lt_two (by omega)))
        · -- bit i of e is set: advance curState by 2^i steps
          rw [hod, Nat.mul_one] at hmp
          have htb : (lcgIter inc e sB).testBit i = ! sB.testBit i := by
            rw [testBit_eq_of_mod_eq hmp (by omega), testBit_add_two_pow_self]
          have hne2 : lcgIter inc e sB &&& 2 ^ i ≠ sB &&& 2 ^ i := by
            rw [Ne, and_two_pow_eq_iff, htb]
            cases sB.testBit i <;> exact fun hc => Bool.noConfusion hc
          rw [if_pos hne2]
          rw [hqd] at hod
          obtain ⟨m, hm⟩ : ∃ m, q = 2 * m + 1 := ⟨q / 2, by omega⟩
          set e2 := 2 ^ (i + 1) * m with he2def
          have he2 : e = 2 ^ i + e2 := by
            rw [he2def, hq, hm, pow_succ']
            ring
          set sB2 := lcgIter inc (2 ^ i) sB with hsB2def
          have hsB2lt : sB2 < M64 := lcgIter_lt _ _ _ hsB
          have hstate : lcgIter inc e sB = lcgIter inc e2 sB2 := by
            rw [show e = e2 + 2 ^ i by omega, lcgIter_add]
          have hcs : (sB * (PCG32_MULT ^ 2 ^ i % M64) + (inc * geomS (2 ^ i)) % M64)
              % M64 = sB2 := affine_step inc (2 ^ i) sB hsB
          have hdvd2 : 2 ^ (i + 1) ∣ e2 := ⟨m, rfl⟩
          have hdvd2i : 2 ^ i ∣ e2 := dvd_trans (pow_dvd_pow 2 (by omega)) hdvd2
          have he2lt : e2 < M64 := by omega
          have hcheck : (lcgIter inc e sB).testBit i = sB2.testBit i := by
            by_cases hz : e2 = 0
            · rw [hstate, hz]
              rfl
            · have hmp2 := lcgIter_mod_pow inc sB2 e2 i hinc hsB2lt hi hdvd2i
              have hev2 : e2 / 2 ^ i % 2 = 0 := by
                rw [he2def, pow_succ, Nat.mul_assoc,
                  Nat.mul_div_cancel_left _ (Nat.pos_pow_of_pos i (by norm_num)),
                  Nat.mul_mod_right]
              rw [hev2, Nat.mul_zero, Nat.add_zero] at hmp2
              rw [hstate]
              exact testBit_eq_of_mod_eq hmp2 (by omega)
          have hcheck2 : lcgIter inc e sB &&& 2 ^ i =
              ((sB * (PCG32_MULT ^ 2 ^ i % M64) + (inc * geomS (2 ^ i)) % M64) % M64)
                &&& 2 ^ i := by
            rw [hcs]
            exact (and_two_pow_eq_iff _ _ i).mpr hcheck
          rw [if_neg (not_not_intro hcheck2), hcs,
            square_mult_update, plus_update, theBit_update,
            show 2 * 2 ^ i = 2 ^ (i + 1) from (pow_succ' 2 i).symm,
            lor_two_pow_of_lt hdist, hstate]
          have hfin := ih (i + 1) inc sB2 (dist + 2 ^ i) e2 (by omega) hinc hsB2lt
            he2lt hdvd2 (by rw [pow_succ']; omega)
          rw [hfin]
          congr 1
          omega

/-- Closed form of the Advance loop: starting from exact affine
representations of 2^j steps (cur) and n steps (acc), it returns the
representation of n + 2^j * delta steps. -/
lemma advanceLoop_closed (inc : ℕ) : ∀ delta j n,
    advanceLoop delta (PCG32_MULT ^ 2 ^ j % M64) ((inc * geomS (2 ^ j)) % M64)
      (PCG32_MULT ^ n % M64) ((inc * geomS n) % M64) =
    (PCG32_MULT ^ (n + 2 ^ j * delta) % M64,
      (inc * geomS (n + 2 ^ j * delta)) % M64) := by
  intro delta
  induction delta using Nat.strong_induction_on with
  | _ delta ih =>
      intro j n
      by_cases h0 : delta = 0
      · subst h0
        rw [advanceLoop]
        simp
      · rw [advanceLoop, dif_neg h0, square_mult_update, plus_update,
          show 2 * 2 ^ j = 2 ^ (j + 1) from (pow_succ' 2 j).symm]
        rcases Nat.mod_two_eq_zero_or_one delta with hpar | hpar
        · rw [if_neg (by omega), if_neg (by omega)]
          rw [ih (delta / 2) (Nat.div_lt_self (by omega) one_lt_two) (j + 1) n]
          have harith : n + 2 ^ (j + 1) * (delta / 2) = n + 2 ^ j * delta := by
            obtain ⟨d2, hd2⟩ : ∃ d2, delta = 2 * d2 := ⟨delta / 2, by omega⟩
            rw [hd2, pow_succ', Nat.mul_div_cancel_left _ two_pos]
            ring
          rw [harith]
        · rw [if_pos hpar, if_pos hpar]
          have hmul : (PCG32_MULT ^ n % M64 * (PCG32_MULT ^ 2 ^ j % M64)) % M64 =
              PCG32_MULT ^ (n + 2 ^ j) % M64 := by
            rw [← Nat.mul_mod, ← pow_add]
          have hplus : ((inc * geomS n) % M64 * (PCG32_MULT ^ 2 ^ j % M64) +
                (inc * geomS (2 ^ j)) % M64) % M64 =
              (inc * geomS (n + 2 ^ j)) % M64 := by
            have h1 : ((inc * geomS n) % M64 * (PCG32_MULT ^ 2 ^ j % M64) +
                  (inc * geomS (2 ^ j)) % M64) % M64 =
                (inc * geomS n * PCG32_MULT ^ 2 ^ j + inc * geomS (2 ^ j)) % M64 :=
              ((Nat.mod_modEq _ _).mul (Nat.mod_modEq _ _)).add (Nat.mod_modEq _ _)
            rw [h1, geomS_add]
            congr 1
            ring
          rw [hmul, hplus,
            ih (delta / 2) (Nat.div_lt_self (by omega) one_lt_two) (j + 1) (n + 2 ^ j)]
          have harith : n + 2 ^ j + 2 ^ (j + 1) * (delta / 2) = n + 2 ^ j * delta := by
            obtain ⟨d2, hd2⟩ : ∃ d2, delta = 2 * d2 + 1 := ⟨delta / 2, by omega⟩
            rw [hd2, pow_succ', show (2 * d2 + 1) / 2 = d2 by omega]
            ring
          rw [harith]

/-- RNG::Advance performs exactly delta LCG steps on the state. -/
lemma advance_state (r : RNG) (d : ℕ) (hs : r.state < M64) (hi : r.inc < M64) :
    (r.advance d).state = lcgIter r.inc d r.state := by
  have h := advanceLoop_closed r.inc d 0 0
  simp only [pow_zero, pow_one, Nat.zero_add, one_mul] at h
  rw [show PCG32_MULT % M64 = PCG32_MULT by decide,
    show geomS 1 = 1 from rfl, Nat.mul_one, Nat.mod_eq_of_lt hi,
    show geomS 0 = 0 from rfl, Nat.mul_zero, Nat.zero_mod,
    show (1:ℕ) % M64 = 1 by decide] at h
  show (((advanceLoop d PCG32_MULT r.inc 1 0).1 * r.state +
    (advanceLoop d PCG32_MULT r.inc 1 0).2) % M64) = _
  rw [h, lcgIter_closed r.inc d r.state hs]
  exact ((Nat.mod_modEq _ _).mul_right r.state).add (Nat.mod_modEq _ _)

lemma advance_state_lt (r : RNG) (d : ℕ) : (r.advance d).state < M64 :=
  Nat.mod_lt _ (by decide)

/-- Claim C2: on a valid stream (odd inc, 64-bit state), if b trails a
by k0 steps and a.Advance(k) is executed, the difference operator a - b
returns exactly k0 + k, for every k0 + k below the 2^64 period.  In
particular with k0 = 0 it returns exactly k. -/
theorem rng_advance_sub_inverse (b : RNG) (hinc : b.inc % 2 = 1) (hincw : b.inc < M64)
    (hstate : b.state < M64) (k0 k : ℕ) (hk : k0 + k < M64) :
    ((b.advance k0).advance k).sub b = some (k0 + k) := by
  have hs1 : (b.advance k0).state = lcgIter b.inc k0 b.state :=
    advance_state b k0 hstate hincw
  have hs2 : ((b.advance k0).advance k).state =
      lcgIter b.inc k (lcgIter b.inc k0 b.state) := by
    have ha := advance_state (b.advance k0) k
      (by rw [hs1]; exact lcgIter_lt _ _ _ hstate)
      (by rw [advance_inc]; exact hincw)
    rw [ha, advance_inc, hs1]
  have hs3 : ((b.advance k0).advance k).state = lcgIter b.inc (k0 + k) b.state := by
    rw [hs2, show k0 + k = k + k0 by ring, lcgIter_add]
  unfold RNG.sub
  rw [if_neg (by rw [advance_inc, advance_inc]; exact fun hc => hc rfl)]
  rw [advance_inc, advance_inc, hs3]
  have hinv := subLoop_invariant 64 0 b.inc b.state 0 (k0 + k) (by omega) hinc hstate
    hk (one_dvd _) (by omega)
  have e1 : PCG32_MULT ^ 2 ^ 0 % M64 = PCG32_MULT := by decide
  have e2 : (b.inc * geomS (2 ^ 0)) % M64 = b.inc := by
    show (b.inc * geomS 1) % M64 = b.inc
    rw [show geomS 1 = 1 by rfl, Nat.mul_one, Nat.mod_eq_of_lt hincw]
  have e3 : (2:ℕ) ^ 0 % M64 = 1 := by decide
  rw [e1, e2, e3] at hinv
  rw [hinv, Nat.zero_add]

/-- Witness for rng_advance_sub_inverse: a stream with inc = 1 and state
42, trailing distance 3, advanced by 5 more steps. -/
theorem rng_advance_sub_inverse_witness :
    (RNG.mk 42 1).inc % 2 = 1 ∧
      (((RNG.mk 42 1).advance 3).advance 5).sub (RNG.mk 42 1) = some 8 :=
  ⟨by decide, rng_advance_sub_inverse (RNG.mk 42 1) (by decide) (by decide) (by decide)
    3 5 (by decide)⟩

/-- Accumulator loop of a bit reversal: moves the low bit of n onto the
accumulator, fuel times. -/
def revBitsAux : ℕ → ℕ → ℕ → ℕ
  | 0, _, acc => acc
  | f + 1, n, acc => revBitsAux f (n / 2) (2 * acc + n % 2)

/-- Modelled from the spec: ReverseBits32 (util/bits.h is not part of
this excerpt) reverses the order of the 32 bits of a word. -/
def ReverseBits32 (n : ℕ) : ℕ := revBitsAux 32 n 0

/-- Modelled from the spec: MultiplyGenerator (lowdiscrepancy.h is not
part of this excerpt) computes the GF(2) matrix-vector product: the XOR
of the columns C i for which bit i of a is set. -/
def MultiplyGenerator (C : ℕ → ℕ) (a : ℕ) : ℕ :=
  if h : a = 0 then 0
  else (if a % 2 = 1 then C 0 else 0) ^^^ MultiplyGenerator (fun i => C (i + 1)) (a / 2)
termination_by a
decreasing_by exact Nat.div_lt_self (Nat.pos_of_ne_zero h) one_lt_two

/-- XOR acts componentwise on a (2a + r) binary decomposition. -/
lemma two_mul_add_xor (a b r s : ℕ) (hr : r < 2) (hs : s < 2) :
    (2 * a + r) ^^^ (2 * b + s) = 2 * (a ^^^ b) + (r + s) % 2 := by
  have h1 : ((2 * a + r) ^^^ (2 * b + s)) % 2 = (r + s) % 2 := by
    rw [Nat.xor_mod_two_eq]
    omega
  have h2 : ((2 * a + r) ^^^ (2 * b + s)) / 2 = a ^^^ b := by
    rw [Nat.xor_div_two, show (2 * a + r) / 2 = a by omega,
      show (2 * b + s) / 2 = b by omega]
  omega

lemma revBitsAux_xor : ∀ f x y a b,
    revBitsAux f x a ^^^ revBitsAux f y b = revBitsAux f (x ^^^ y) (a ^^^ b) := by
  intro f
  induction f with
  | zero => intro x y a b; rfl
  | succ f ih =>
      intro x y a b
      show revBitsAux f (x / 2) (2 * a + x % 2) ^^^
          revBitsAux f (y / 2) (2 * b + y % 2) =
        revBitsAux f ((x ^^^ y) / 2) (2 * (a ^^^ b) + (x ^^^ y) % 2)
      rw [ih]
      congr 1
      · exact Nat.xor_div_two.symm
      · rw [two_mul_add_xor a b (x % 2) (y % 2) (by omega) (by omega),
          Nat.xor_mod_two_eq]
        omega

lemma reverseBits32_xor (x y : ℕ) :
    ReverseBits32 (x ^^^ y) = ReverseBits32 x ^^^ ReverseBits32 y := by
  have h := revBitsAux_xor 32 x y 0 0
  rw [show (0:ℕ) ^^^ 0 = 0 from rfl] at h
  exact h.symm

lemma reverseBits32_zero : ReverseBits32 0 = 0 := rfl

/-- XOR of a power of two with a multiple of the next power is addition. -/
lemma xor_two_pow_even (k : ℕ) : ∀ m, 2 ^ k ^^^ 2 ^ (k + 1) * m = 2 ^ k + 2 ^ (k + 1) * m := by
  induction k with
  | zero =>
      intro m
      have h := two_mul_add_xor 0 m 1 0 (by omega) (by omega)
      norm_num at h
      show 1 ^^^ 2 * m = 1 + 2 * m
      rw [h]
      omega
  | succ k ih =>
      intro m
      calc 2 ^ (k + 1) ^^^ 2 ^ (k + 1 + 1) * m
          = (2 * 2 ^ k) ^^^ (2 * (2 ^ (k + 1) * m)) := by congr 1 <;> ring
        _ = 2 * (2 ^ k ^^^ 2 ^ (k + 1) * m) := by
              have h := two_mul_add_xor (2 ^ k) (2 ^ (k + 1) * m) 0 0 (by omega) (by omega)
              simpa using h
        _ = 2 * (2 ^ k + 2 ^ (k + 1) * m) := by rw [ih]
        _ = 2 ^ (k + 1) + 2 ^ (k + 1 + 1) * m := by ring

/-- The generator-matrix product against columns 2^(k+i) scales the index
by 2^k; with k = 0 this is the identity-matrix case. -/
lemma multiplyGenerator_pow_shift : ∀ a k C, (∀ i, C i = 2 ^ (k + i)) →
    MultiplyGenerator C a = 2 ^ k * a := by
  intro a
  induction a using Nat.strong_induction_on with
  | _ a ih =>
      intro k C hC
      by_cases h0 : a = 0
      · subst h0
        rw [MultiplyGenerator]
        simp
      · rw [MultiplyGenerator, dif_neg h0,
          ih (a / 2) (Nat.div_lt_self (by omega) one_lt_two) (k + 1)
            (fun i => C (i + 1))
            (fun i => by show C (i + 1) = 2 ^ (k + 1 + i); rw [hC]; congr 1; omega),
          hC 0, Nat.add_zero]
        rcases Nat.mod_two_eq_zero_or_one a with hp | hp
        · obtain ⟨m, hm⟩ : ∃ m, a = 2 * m := ⟨a / 2, by omega⟩
          subst hm
          rw [Nat.mul_div_cancel_left m (by norm_num), if_neg (by omega)]
          rw [Nat.zero_xor]
          ring
        · obtain ⟨m, hm⟩ : ∃ m, a = 2 * m + 1 := ⟨a / 2, by omega⟩
          subst hm
          rw [show (2 * m + 1) / 2 = m by omega, if_pos hp, xor_two_pow_even]
          ring

/-- Column-wise bit reversal commutes with reversing the product, for
any matrix. -/
lemma multiplyGenerator_rev : ∀ a C D, (∀ i, D i = ReverseBits32 (C i)) →
    ReverseBits32 (MultiplyGenerator C a) = MultiplyGenerator D a := by
  intro a
  induction a using Nat.strong_induction_on with
  | _ a ih =>
      intro C D hCD
      by_cases h0 : a = 0
      · subst h0
        rw [show MultiplyGenerator C 0 = 0 by rw [MultiplyGenerator]; rfl,
          show MultiplyGenerator D 0 = 0 by rw [MultiplyGenerator]; rfl,
          reverseBits32_zero]
      · have hCu : MultiplyGenerator C a = (if a % 2 = 1 then C 0 else 0) ^^^
            MultiplyGenerator (fun i => C (i + 1)) (a / 2) := by
          rw [MultiplyGenerator, dif_neg h0]
        have hDu : MultiplyGenerator D a = (if a % 2 = 1 then D 0 else 0) ^^^
            MultiplyGenerator (fun i => D (i + 1)) (a / 2) := by
          rw [MultiplyGenerator, dif_neg h0]
        rw [hCu, hDu, reverseBits32_xor,
          ih (a / 2) (Nat.div_lt_self (by omega) one_lt_two)
            (fun i => C (i + 1)) (fun i => D (i + 1)) (fun i => hCD (i + 1))]
        rcases Nat.mod_two_eq_zero_or_one a with hp | hp
        · rw [if_neg (by omega), if_neg (by omega), reverseBits32_zero]
        · rw [if_pos hp, if_pos hp, hCD 0]

/-- Claim C9: for indices in the 32-bit range, the generator-matrix
product with the identity matrix returns the index itself, and for any
matrix, bit-reversing the columns commutes with bit-reversing the
product. -/
theorem generator_matrix_identity_and_reversal (C : ℕ → ℕ) (a : ℕ) (ha : a < 2 ^ 32) :
    MultiplyGenerator (fun i => 2 ^ i) a = a ∧
      ReverseBits32 (MultiplyGenerator C a) =
        MultiplyGenerator (fun i => ReverseBits32 (C i)) a := by
  constructor
  · have h := multiplyGenerator_pow_shift a 0 (fun i => 2 ^ i)
      (fun i => by rw [Nat.zero_add])
    rw [h, pow_zero, Nat.one_mul]
  · exact multiplyGenerator_rev a C (fun i => ReverseBits32 (C i)) (fun i => rfl)

/-- Witness for generator_matrix_identity_and_reversal at a concrete
matrix and index. -/
theorem generator_matrix_identity_and_reversal_witness :
    (700 : ℕ) < 2 ^ 32 ∧ MultiplyGenerator (fun i => 2 ^ i) 700 = 700 ∧
      ReverseBits32 (MultiplyGenerator (fun i => i + 3) 700) =
        MultiplyGenerator (fun i => ReverseBits32 (i + 3)) 700 :=
  ⟨by decide,
    (generator_matrix_identity_and_reversal (fun i => i + 3) 700 (by decide)).1,
    (generator_matrix_identity_and_reversal (fun i => i + 3) 700 (by decide)).2⟩

/-- Modelled from the spec: the mutable state of a PixelSampler (the
Sampler / PixelSampler base classes of sampler.h are not part of this
excerpt).  It keeps per-pixel tables of precomputed 1D/2D sample values
and array-sample batches, one cursor per table, the current sample
index, and the pixel of the most recent StartSequence call; genCalls
counts the GeneratePixelSamples invocations. -/
structure PSampler (α : Type) where
  lastPixel : Option (ℤ × ℤ)
  sampleIndex : ℕ
  table1 : ℕ → ℕ → α
  table2 : ℕ → ℕ → α × α
  atable1 : ℕ → ℕ → List α
  atable2 : ℕ → ℕ → List (α × α)
  cur1 : ℕ
  cur2 : ℕ
  acur1 : ℕ
  acur2 : ℕ
  genCalls : ℕ

/-- Modelled from the spec: GeneratePixelSamples as a deterministic
per-pixel generator of the four tables (determinism is the spec's
reproducibility requirement). -/
structure PixelGen (α : Type) where
  gen1 : ℤ × ℤ → ℕ → ℕ → α
  gen2 : ℤ × ℤ → ℕ → ℕ → α × α
  agen1 : ℤ × ℤ → ℕ → ℕ → List α
  agen2 : ℤ × ℤ → ℕ → ℕ → List (α × α)

/-- Modelled from the spec: StartSequence(pixel, index) regenerates the
per-pixel tables via GeneratePixelSamples only when the pixel differs
from the previous call's pixel, and always resets all cursors. -/
def startSequence {α : Type} (G : PixelGen α) (st : PSampler α) (p : ℤ × ℤ) (s : ℕ) :
    PSampler α :=
  if st.lastPixel = some p then
    { st with sampleIndex := s, cur1 := 0, cur2 := 0, acur1 := 0, acur2 := 0 }
  else
    { lastPixel := some p, sampleIndex := s,
      table1 := G.gen1 p, table2 := G.gen2 p,
      atable1 := G.agen1 p, atable2 := G.agen2 p,
      cur1 := 0, cur2 := 0, acur1 := 0, acur2 := 0,
      genCalls := st.genCalls + 1 }

/-- A consumption request: Get1D, Get2D, Get1DArray(n) or Get2DArray(n). -/
inductive SOp where
  | get1D : SOp
  | get2D : SOp
  | get1DArray (n : ℕ) : SOp
  | get2DArray (n : ℕ) : SOp

/-- The value returned by one consumption request. -/
inductive SOut (α : Type) where
  | v1 (x : α) : SOut α
  | v2 (x : α × α) : SOut α
  | arr1 (xs : List α) : SOut α
  | arr2 (xs : List (α × α)) : SOut α

/-- Modelled from the spec: the Get operations read the table entry at
the relevant cursor and current sample index and advance that cursor. -/
def consume {α : Type} (st : PSampler α) : SOp → SOut α × PSampler α
  | SOp.get1D =>
      (SOut.v1 (st.table1 st.cur1 st.sampleIndex), { st with cur1 := st.cur1 + 1 })
  | SOp.get2D =>
      (SOut.v2 (st.table2 st.cur2 st.sampleIndex), { st with cur2 := st.cur2 + 1 })
  | SOp.get1DArray n =>
      (SOut.arr1 ((st.atable1 st.acur1 st.sampleIndex).take n),
        { st with acur1 := st.acur1 + 1 })
  | SOp.get2DArray n =>
      (SOut.arr2 ((st.atable2 st.acur2 st.sampleIndex).take n),
        { st with acur2 := st.acur2 + 1 })

/-- Run a list of consumption requests, collecting the outputs. -/
def runOps {α : Type} : PSampler α → List SOp → List (SOut α) × PSampler α
  | st, [] => ([], st)
  | st, op :: ops =>
      ((consume st op).1 :: (runOps (consume st op).2 ops).1,
        (runOps (consume st op).2 ops).2)

/-- An arbitrary interaction with the sampler. -/
inductive SCmd where
  | start (p : ℤ × ℤ) (s : ℕ) : SCmd
  | op (o : SOp) : SCmd

/-- Run a list of arbitrary interactions. -/
def runCmds {α : Type} (G : PixelGen α) : PSampler α → List SCmd → PSampler α
  | st, [] => st
  | st, SCmd.start p s :: cs => runCmds G (startSequence G st p s) cs
  | st, SCmd.op o :: cs => runCmds G (consume st o).2 cs

/-- The tables stored in the state agree with the generator at the
current pixel. -/
def TablesOk {α : Type} (G : PixelGen α) (st : PSampler α) : Prop :=
  ∀ p, st.lastPixel = some p →
    st.table1 = G.gen1 p ∧ st.table2 = G.gen2 p ∧
      st.atable1 = G.agen1 p ∧ st.atable2 = G.agen2 p

/-- The canonical state right after StartSequence(p, s). -/
def freshState {α : Type} (G : PixelGen α) (p : ℤ × ℤ) (s : ℕ) (g : ℕ) : PSampler α :=
  { lastPixel := some p, sampleIndex := s, table1 := G.gen1 p, table2 := G.gen2 p,
    atable1 := G.agen1 p, atable2 := G.agen2 p, cur1 := 0, cur2 := 0, acur1 := 0,
    acur2 := 0, genCalls := g }

lemma startSequence_canonical {α : Type} (G : PixelGen α) (st : PSampler α)
    (p : ℤ × ℤ) (s : ℕ) (h : TablesOk G st) :
    startSequence G st p s = freshState G p s (startSequence G st p s).genCalls := by
  unfold startSequence freshState
  by_cases hc : st.lastPixel = some p
  · obtain ⟨t1, t2, t3, t4⟩ := h p hc
    rw [if_pos hc]
    cases st
    simp only at t1 t2 t3 t4 hc ⊢
    simp [hc, t1, t2, t3, t4]
  · rw [if_neg hc]

lemma tablesOk_startSequence {α : Type} (G : PixelGen α) (st : PSampler α)
    (p : ℤ × ℤ) (s : ℕ) (h : TablesOk G st) : TablesOk G (startSequence G st p s) := by
  unfold startSequence
  by_cases hc : st.lastPixel = some p
  · rw [if_pos hc]
    intro q hq
    simp only at hq
    exact h q hq
  · rw [if_neg hc]
    intro q hq
    simp only at hq
    cases hq
    exact ⟨rfl, rfl, rfl, rfl⟩

lemma tablesOk_consume {α : Type} (G : PixelGen α) (st : PSampler α) (o : SOp)
    (h : TablesOk G st) : TablesOk G (consume st o).2 := by
  cases o <;> exact h

lemma tablesOk_runOps {α : Type} (G : PixelGen α) :
    ∀ (L : List SOp) (st : PSampler α), TablesOk G st → TablesOk G (runOps st L).2 := by
  intro L
  induction L with
  | nil => intro st h; exact h
  | cons op ops ih => intro st h; exact ih _ (tablesOk_consume G st op h)

lemma tablesOk_runCmds {α : Type} (G : PixelGen α) :
    ∀ (cs : List SCmd) (st : PSampler α), TablesOk G st → TablesOk G (runCmds G st cs) := by
  intro cs
  induction cs with
  | nil => intro st h; exact h
  | cons c cs ih =>
      intro st h
      cases c with
      | start p s => exact ih _ (tablesOk_startSequence G st p s h)
      | op o => exact ih _ (tablesOk_consume G st o h)

lemma runOps_outputs_genCalls {α : Type} :
    ∀ (L : List SOp) (st : PSampler α) (g : ℕ),
      (runOps { st with genCalls := g } L).1 = (runOps st L).1 := by
  intro L
  induction L with
  | nil => intro st g; rfl
  | cons op ops ih =>
      intro st g
      cases op with
      | get1D =>
          simp only [runOps, consume]
          exact congrArg (List.cons _) (ih { st with cur1 := st.cur1 + 1 } g)
      | get2D =>
          simp only [runOps, consume]
          exact congrArg (List.cons _) (ih { st with cur2 := st.cur2 + 1 } g)
      | get1DArray n =>
          simp only [runOps, consume]
          exact congrArg (List.cons _) (ih { st with acur1 := st.acur1 + 1 } g)
      | get2DArray n =>
          simp only [runOps, consume]
          exact congrArg (List.cons _) (ih { st with acur2 := st.acur2 + 1 } g)

/-- Claim C1: bit-exact replay.  From any well-formed sampler state,
starting the sequence (p, s) and running a fixed list of Get requests,
then performing arbitrary further interactions (other keys, more
consumption), then re-starting (p, s) and replaying the same requests,
produces identical outputs. -/
theorem sampler_bit_exact_replay {α : Type} (G : PixelGen α) (st : PSampler α)
    (hwf : TablesOk G st) (p : ℤ × ℤ) (s : ℕ) (L : List SOp) (mid : List SCmd) :
    (runOps (startSequence G st p s) L).1 =
      (runOps (startSequence G
        (runCmds G (runOps (startSequence G st p s) L).2 mid) p s) L).1 := by
  have h1 := startSequence_canonical G st p s hwf
  have hwf2 : TablesOk G (runCmds G (runOps (startSequence G st p s) L).2 mid) :=
    tablesOk_runCmds G mid _
      (tablesOk_runOps G L _ (tablesOk_startSequence G st p s hwf))
  have h2 := startSequence_canonical G _ p s hwf2
  have hout : ∀ g g2 : ℕ, (runOps (freshState G p s g) L).1 =
      (runOps (freshState G p s g2) L).1 := by
    intro g g2
    rw [show freshState G p s g = { freshState G p s g2 with genCalls := g } from rfl,
      runOps_outputs_genCalls]
  conv_rhs => rw [h2]
  rw [h1]
  exact hout _ _

/-- A trivial generator and a fresh sampler, used as witnesses. -/
def trivGen : PixelGen ℕ :=
  ⟨fun _ _ _ => 0, fun _ _ _ => (0, 0), fun _ _ _ => [], fun _ _ _ => []⟩

/-- A freshly constructed sampler: no pixel visited yet. -/
def initSampler : PSampler ℕ :=
  { lastPixel := none, sampleIndex := 0, table1 := fun _ _ => 0,
    table2 := fun _ _ => (0, 0), atable1 := fun _ _ => [], atable2 := fun _ _ => [],
    cur1 := 0, cur2 := 0, acur1 := 0, acur2 := 0, genCalls := 0 }

/-- Witness for sampler_bit_exact_replay on a concrete visit pattern. -/
theorem sampler_bit_exact_replay_witness :
    TablesOk trivGen initSampler ∧
      (runOps (startSequence trivGen initSampler (1, 5) 2)
        [SOp.get1D, SOp.get2D, SOp.get1DArray 4]).1 =
      (runOps (startSequence trivGen
        (runCmds trivGen
          (runOps (startSequence trivGen initSampler (1, 5) 2)
            [SOp.get1D, SOp.get2D, SOp.get1DArray 4]).2
          [SCmd.start (0, 6) 10, SCmd.op SOp.get2D, SCmd.op SOp.get1D]) (1, 5) 2)
        [SOp.get1D, SOp.get2D, SOp.get1DArray 4]).1 := by
  have hwf : TablesOk trivGen initSampler := fun p hp => Option.noConfusion hp
  exact ⟨hwf, sampler_bit_exact_replay trivGen initSampler hwf (1, 5) 2
    [SOp.get1D, SOp.get2D, SOp.get1DArray 4]
    [SCmd.start (0, 6) 10, SCmd.op SOp.get2D, SCmd.op SOp.get1D]⟩

/-- Run a list of StartSequence(pixel, index) calls. -/
def runStarts {α : Type} (G : PixelGen α) : PSampler α → List ((ℤ × ℤ) × ℕ) → PSampler α
  | st, [] => st
  | st, v :: rest => runStarts G (startSequence G st v.1 v.2) rest

/-- Number of visits whose pixel differs from the previous visit's
pixel, starting from a given last pixel. -/
def countTransitions : Option (ℤ × ℤ) → List ((ℤ × ℤ) × ℕ) → ℕ
  | _, [] => 0
  | last, v :: rest =>
      (if last = some v.1 then 0 else 1) + countTransitions (some v.1) rest

lemma startSequence_lastPixel {α : Type} (G : PixelGen α) (st : PSampler α)
    (p : ℤ × ℤ) (s : ℕ) : (startSequence G st p s).lastPixel = some p := by
  unfold startSequence
  by_cases hc : st.lastPixel = some p
  · rw [if_pos hc]; exact hc
  · rw [if_neg hc]

lemma startSequence_genCalls {α : Type} (G : PixelGen α) (st : PSampler α)
    (p : ℤ × ℤ) (s : ℕ) : (startSequence G st p s).genCalls =
      st.genCalls + (if st.lastPixel = some p then 0 else 1) := by
  unfold startSequence
  by_cases hc : st.lastPixel = some p
  · rw [if_pos hc, if_pos hc]
    simp
  · rw [if_neg hc, if_neg hc]

/-- Claim C6: GeneratePixelSamples is invoked exactly once per pixel
transition (the first visit included), never on a sample-index change
alone; in particular the visit pattern (p0,0),(p0,1),(p0,10),(p1,4),
(p0,11) from a fresh sampler triggers exactly 3 invocations. -/
theorem generatePixelSamples_once_per_pixel {α : Type} (G : PixelGen α) :
    (∀ (visits : List ((ℤ × ℤ) × ℕ)) (st : PSampler α),
        (runStarts G st visits).genCalls =
          st.genCalls + countTransitions st.lastPixel visits)
  ∧ countTransitions none
      [((0, 0), 0), ((0, 0), 1), ((0, 0), 10), ((1, 0), 4), ((0, 0), 11)] = 3 := by
  constructor
  · intro visits
    induction visits with
    | nil => intro st; rfl
    | cons v rest ih =>
        intro st
        show (runStarts G (startSequence G st v.1 v.2) rest).genCalls = _
        rw [ih, startSequence_genCalls, startSequence_lastPixel]
        show st.genCalls + _ + countTransitions (some v.1) rest = _
        rw [countTransitions]
        omega
  · decide

/-- The mutable contents of a BufferCache: the hash-map from BufferId
keys to stored buffers (pointer identity modelled by allocation ids),
the allocation counter, and the lookup / hit statistics counters. -/
structure CacheState (α : Type) where
  cache : List ((ℕ × ℕ) × ℕ)
  store : ℕ → List α
  nextPtr : ℕ
  lookups : ℕ
  hits : ℕ

/-- Modelled from the spec: BufferId pairs the hash of the buffer
contents with its size (HashBuffer of hash.h is not part of this
excerpt, so the hash is a parameter). -/
def bufferId {α : Type} (h : List α → ℕ) (buf : List α) : ℕ × ℕ := (h buf, buf.length)

/-- Probe of the BufferCache hash map. -/
def findId (cache : List ((ℕ × ℕ) × ℕ)) (id : ℕ × ℕ) : Option ℕ :=
  match cache.find? (fun e => e.1 == id) with
  | some e => some e.2
  | none => none

/-- A cache with no entries, as produced by InitBufferCaches. -/
def emptyCache (α : Type) : CacheState α := ⟨[], fun _ => [], 0, 0, 0⟩

/-- BufferCache::LookupOrAdd.  On a hit it returns the stored pointer
and bumps the hit counter; in debug builds a hit with differing bytes
fails the DCHECK, modelled as none.  On a miss it copies the buffer
into a fresh allocation and inserts it. -/
def lookupOrAdd {α : Type} [DecidableEq α] (h : List α → ℕ) (debug : Bool)
    (st : CacheState α) (buf : List α) : Option (ℕ × CacheState α) :=
  match findId st.cache (bufferId h buf) with
  | some p =>
      if debug = true ∧ st.store p ≠ buf then none
      else some (p, { st with lookups := st.lookups + 1, hits := st.hits + 1 })
  | none =>
      some (st.nextPtr,
        { cache := (bufferId h buf, st.nextPtr) :: st.cache,
          store := fun q => if q = st.nextPtr then buf else st.store q,
          nextPtr := st.nextPtr + 1,
          lookups := st.lookups + 1, hits := st.hits })

/-- Cache states reachable from the empty cache by successful lookups. -/
inductive CacheReach {α : Type} [DecidableEq α] (h : List α → ℕ) : CacheState α → Prop
  | init : CacheReach h (emptyCache α)
  | step (st : CacheState α) (buf : List α) (p : ℕ) (st2 : CacheState α) :
      CacheReach h st → lookupOrAdd h false st buf = some (p, st2) → CacheReach h st2

/-- Cache states reachable from a given state by further successful
lookups. -/
inductive CacheReachFrom {α : Type} [DecidableEq α] (h : List α → ℕ) :
    CacheState α → CacheState α → Prop
  | refl (st : CacheState α) : CacheReachFrom h st st
  | step (st st2 st3 : CacheState α) (buf : List α) (p : ℕ) :
      CacheReachFrom h st st2 → lookupOrAdd h false st2 buf = some (p, st3) →
      CacheReachFrom h st st3

/-- Structural invariant of the cache: every stored pointer is below the
allocation counter and entries have pairwise distinct keys and pairwise
distinct pointers. -/
def CacheInv {α : Type} (st : CacheState α) : Prop :=
  (∀ e ∈ st.cache, e.2 < st.nextPtr) ∧
    st.cache.Pairwise (fun e1 e2 => e1.1 ≠ e2.1 ∧ e1.2 ≠ e2.2)

lemma findId_eq_none_iff (cache : List ((ℕ × ℕ) × ℕ)) (id : ℕ × ℕ) :
    findId cache id = none ↔ ∀ e ∈ cache, e.1 ≠ id := by
  unfold findId
  rcases hf : cache.find? (fun e => e.1 == id) with _ | e
  · rw [hf]
    rw [List.find?_eq_none] at hf
    refine iff_of_true rfl ?_
    intro e he
    have h2 := hf e he
    simpa using h2
  · rw [hf]
    have h1 := List.find?_some hf
    simp only [beq_iff_eq] at h1
    refine iff_of_false ?_ ?_
    · show ¬(some e.2 = none)
      intro hc
      exact Option.noConfusion hc
    · intro hall
      exact hall e (List.mem_of_find?_eq_some hf) h1

lemma findId_of_mem (cache : List ((ℕ × ℕ) × ℕ)) (id : ℕ × ℕ) (p : ℕ)
    (hnd : cache.Pairwise (fun e1 e2 => e1.1 ≠ e2.1 ∧ e1.2 ≠ e2.2))
    (hmem : (id, p) ∈ cache) : findId cache id = some p := by
  induction cache with
  | nil => cases hmem
  | cons e rest ih =>
      rcases List.pairwise_cons.mp hnd with ⟨hhead, htail⟩
      rcases List.mem_cons.mp hmem with heq | hmem2
      · unfold findId
        rw [List.find?_cons_of_pos _ (by rw [← heq]; simp)]
        rw [← heq]
      · have hne : e.1 ≠ id := by
          intro hc
          exact (hhead _ hmem2).1 (by rw [hc])
        unfold findId
        rw [List.find?_cons_of_neg _ (by simpa using hne)]
        exact ih htail hmem2

lemma findId_mem (cache : List ((ℕ × ℕ) × ℕ)) (id : ℕ × ℕ) (p : ℕ)
    (h : findId cache id = some p) : (id, p) ∈ cache := by
  unfold findId at h
  rcases hf : cache.find? (fun e => e.1 == id) with _ | e
  · rw [hf] at h
    exact Option.noConfusion h
  · rw [hf] at h
    have h1 := List.find?_some hf
    have h2 := List.mem_of_find?_eq_some hf
    simp only [beq_iff_eq] at h1
    have he : e = (id, p) := by
      rcases e with ⟨e1, e2⟩
      simp only [Option.some.injEq] at h
      simp_all
    rw [← he]
    exact h2

lemma cacheInv_empty (α : Type) : CacheInv (emptyCache α) :=
  ⟨fun e he => absurd he (List.not_mem_nil e), List.Pairwise.nil⟩

lemma cacheInv_step {α : Type} [DecidableEq α] (h : List α → ℕ) (dbg : Bool)
    (st : CacheState α) (buf : List α) (p : ℕ) (st2 : CacheState α)
    (hinv : CacheInv st) (hs : lookupOrAdd h dbg st buf = some (p, st2)) :
    CacheInv st2 := by
  unfold lookupOrAdd at hs
  split at hs
  · split at hs
    · exact Option.noConfusion hs
    · simp only [Option.some.injEq, Prod.mk.injEq] at hs
      obtain ⟨hp, hst⟩ := hs
      subst hst
      exact hinv
  · rename_i hf
    simp only [Option.some.injEq, Prod.mk.injEq] at hs
    obtain ⟨hp, hst⟩ := hs
    subst hst
    constructor
    · intro e he
      rcases List.mem_cons.mp he with heq | he2
      · rw [heq]
        show st.nextPtr < st.nextPtr + 1
        omega
      · have h2 := hinv.1 e he2
        show e.2 < st.nextPtr + 1
        omega
    · rw [List.pairwise_cons]
      refine ⟨?_, hinv.2⟩
      intro e he2
      have hk : e.1 ≠ bufferId h buf := (findId_eq_none_iff _ _).mp hf e he2
      have hp2 : e.2 < st.nextPtr := hinv.1 e he2
      exact ⟨fun hc => hk hc.symm, by show st.nextPtr ≠ e.2; omega⟩

lemma lookupOrAdd_mono {α : Type} [DecidableEq α] (h : List α → ℕ) (dbg : Bool)
    (st : CacheState α) (buf : List α) (p : ℕ) (st2 : CacheState α)
    (hs : lookupOrAdd h dbg st buf = some (p, st2)) :
    ∀ e, e ∈ st.cache → e ∈ st2.cache := by
  unfold lookupOrAdd at hs
  split at hs
  · split at hs
    · exact Option.noConfusion hs
    · simp only [Option.some.injEq, Prod.mk.injEq] at hs
      obtain ⟨hp, hst⟩ := hs
      subst hst
      intro e he
      exact he
  · simp only [Option.some.injEq, Prod.mk.injEq] at hs
    obtain ⟨hp, hst⟩ := hs
    subst hst
    intro e he
    exact List.mem_cons_of_mem _ he

lemma lookupOrAdd_entry {α : Type} [DecidableEq α] (h : List α → ℕ) (dbg : Bool)
    (st : CacheState α) (buf : List α) (p : ℕ) (st2 : CacheState α)
    (hs : lookupOrAdd h dbg st buf = some (p, st2)) :
    (bufferId h buf, p) ∈ st2.cache := by
  unfold lookupOrAdd at hs
  split at hs
  · rename_i q hf
    split at hs
    · exact Option.noConfusion hs
    · simp only [Option.some.injEq, Prod.mk.injEq] at hs
      obtain ⟨hp, hst⟩ := hs
      subst hst
      rw [← hp]
      exact findId_mem _ _ _ hf
  · simp only [Option.some.injEq, Prod.mk.injEq] at hs
    obtain ⟨hp, hst⟩ := hs
    subst hst
    rw [← hp]
    exact List.mem_cons_self _ _

lemma cacheReach_inv {α : Type} [DecidableEq α] (h : List α → ℕ) (st : CacheState α)
    (hr : CacheReach h st) : CacheInv st := by
  induction hr with
  | init => exact cacheInv_empty α
  | step st buf p st2 _ hs ih => exact cacheInv_step h false st buf p st2 ih hs

lemma cacheReachFrom_inv {α : Type} [DecidableEq α] (h : List α → ℕ)
    (st st2 : CacheState α) (hinv : CacheInv st) (hr : CacheReachFrom h st st2) :
    CacheInv st2 := by
  induction hr with
  | refl => exact hinv
  | step st2 st3 buf p hrec hs ih => exact cacheInv_step h false st2 buf p st3 ih hs

lemma cacheReachFrom_mono {α : Type} [DecidableEq α] (h : List α → ℕ)
    (st st2 : CacheState α) (hr : CacheReachFrom h st st2) :
    ∀ e, e ∈ st.cache → e ∈ st2.cache := by
  induction hr with
  | refl => exact fun e he => he
  | step st2 st3 buf p hrec hs ih =>
      exact fun e he => lookupOrAdd_mono h false st2 buf p st3 hs e (ih e he)

/-- Claim C4: from any reachable cache state, after a call with buffer x
returned pointer p: (i) any later call with byte-identical content x
returns the same pointer p and increments the hit counter, across any
interleaved successful calls; (ii) a call with content of a different
BufferId returns a distinct pointer; (iii) in debug builds a hit whose
stored bytes differ from the presented buffer is fatal. -/
theorem bufferCache_lookupOrAdd_spec {α : Type} [DecidableEq α] (h : List α → ℕ)
    (st : CacheState α) (hr : CacheReach h st) (x : List α) (p : ℕ)
    (st1 : CacheState α) (hx : lookupOrAdd h false st x = some (p, st1)) :
    (∀ st2, CacheReachFrom h st1 st2 →
        ∃ st3, lookupOrAdd h false st2 x = some (p, st3) ∧ st3.hits = st2.hits + 1)
  ∧ (∀ (y : List α) (q : ℕ) (st3 : CacheState α), bufferId h y ≠ bufferId h x →
        lookupOrAdd h false st1 y = some (q, st3) → q ≠ p)
  ∧ (∀ (y : List α) (q : ℕ), findId st1.cache (bufferId h y) = some q →
        st1.store q ≠ y → lookupOrAdd h true st1 y = none) := by
  have hinv1 : CacheInv st1 :=
    cacheInv_step h false st x p st1 (cacheReach_inv h st hr) hx
  have hmemx : (bufferId h x, p) ∈ st1.cache := lookupOrAdd_entry h false st x p st1 hx
  refine ⟨?_, ?_, ?_⟩
  · intro st2 hrf
    have hinv2 : CacheInv st2 := cacheReachFrom_inv h st1 st2 hinv1 hrf
    have hmem2 : (bufferId h x, p) ∈ st2.cache :=
      cacheReachFrom_mono h st1 st2 hrf _ hmemx
    have hfind : findId st2.cache (bufferId h x) = some p :=
      findId_of_mem _ _ _ hinv2.2 hmem2
    refine ⟨{ st2 with lookups := st2.lookups + 1, hits := st2.hits + 1 }, ?_, rfl⟩
    unfold lookupOrAdd
    rw [hfind]
    show (if false = true ∧ st2.store p ≠ x then none
        else some (p, { st2 with lookups := st2.lookups + 1, hits := st2.hits + 1 })) =
      some (p, { st2 with lookups := st2.lookups + 1, hits := st2.hits + 1 })
    rw [if_neg (fun hc => Bool.noConfusion hc.1)]
  · intro y q st3 hid hy
    unfold lookupOrAdd at hy
    split at hy
    · rename_i q2 hf
      split at hy
      · exact Option.noConfusion hy
      · simp only [Option.some.injEq, Prod.mk.injEq] at hy
        obtain ⟨hq, hst⟩ := hy
        have hmemy : (bufferId h y, q2) ∈ st1.cache := findId_mem _ _ _ hf
        have hsym : Symmetric (fun (e1 e2 : (ℕ × ℕ) × ℕ) =>
            e1.1 ≠ e2.1 ∧ e1.2 ≠ e2.2) :=
          fun a b hab => ⟨hab.1.symm, hab.2.symm⟩
        have hne : ((bufferId h y, q2) : (ℕ × ℕ) × ℕ) ≠ (bufferId h x, p) := by
          intro hcc
          exact hid (congrArg Prod.fst hcc)
        have hR := hinv1.2.forall hsym hmemy hmemx hne
        subst hq
        exact hR.2
    · simp only [Option.some.injEq, Prod.mk.injEq] at hy
      obtain ⟨hq, hst⟩ := hy
      have hp2 : p < st1.nextPtr := hinv1.1 _ hmemx
      subst hq
      show st1.nextPtr ≠ p
      omega
  · intro y q hfq hne
    unfold lookupOrAdd
    rw [hfq]
    show (if true = true ∧ st1.store q ≠ y then none
        else some (q, { st1 with lookups := st1.lookups + 1, hits := st1.hits + 1 })) =
      none
    rw [if_pos ⟨rfl, hne⟩]

/-- A concrete content hash for the buffer-cache witnesses. -/
def wCacheHash : List ℕ → ℕ := fun b => b.foldl (fun a c => a * 31 + c) 7

/-- The cache state after inserting [1, 2] into the empty cache. -/
def wState1 : CacheState ℕ :=
  { cache := [(bufferId wCacheHash [1, 2], 0)],
    store := fun q => if q = 0 then [1, 2] else [],
    nextPtr := 1, lookups := 1, hits := 0 }

/-- Witness for bufferCache_lookupOrAdd_spec: insert [1, 2] into the
empty cache, then look it up again. -/
theorem bufferCache_lookupOrAdd_spec_witness :
    lookupOrAdd wCacheHash false (emptyCache ℕ) [1, 2] = some (0, wState1) ∧
      ∃ st3, lookupOrAdd wCacheHash false wState1 [1, 2] = some (0, st3) ∧
        st3.hits = wState1.hits + 1 :=
  ⟨rfl, (bufferCache_lookupOrAdd_spec wCacheHash (emptyCache ℕ) CacheReach.init
      [1, 2] 0 wState1 rfl).1 wState1 (CacheReachFrom.refl wState1)⟩

/-- Fuel-driven floor base-2 logarithm. -/
def log2floorAux : ℕ → ℕ → ℕ
  | 0, _ => 0
  | fuel + 1, n => if n ≤ 1 then 0 else log2floorAux fuel (n / 2) + 1

/-- Modelled from the spec: Log2Int of the pbrt core (floor base-2
logarithm of a positive integer; not part of this excerpt). -/
def Log2Int (n : ℕ) : ℕ := log2floorAux n n

/-- Modelled from the spec: IsPowerOf2 of the pbrt core. -/
def isPowerOf2 (n : ℕ) : Bool := n != 0 && (n &&& (n - 1) == 0)

/-- Modelled from the spec: RoundUpPow2 of the pbrt core — the smallest
power of two that is at least n. -/
def RoundUpPow2 (n : ℕ) : ℕ := if n ≤ 1 then 1 else 2 ^ (Log2Int (n - 1) + 1)

/-- The sample-count adjustment lambda inside the MaxMinDistSampler
constructor (maxmin.h): when the requested count indexes past the
CMaxMinDist table (nTab entries) it warns and replaces the count by
(1 << nTab) - 1, then rounds any non power of two up with a warning. -/
def maxMinAdjustSpp (nTab spp : ℕ) : ℕ :=
  let spp1 := if nTab ≤ Log2Int spp then 2 ^ nTab - 1 else spp
  if isPowerOf2 spp1 then spp1 else RoundUpPow2 spp1

/-- The MaxMinDistSampler constructor: PixelSampler receives the
adjusted count, but the body computes Cindex = Log2Int(samplesPerPixel)
from the ORIGINAL constructor parameter (which shadows the member) and
CHECKs Cindex against the table size; a failed CHECK is fatal, modelled
as none.  On success the result is (stored samplesPerPixel, Cindex). -/
def maxMinDistSamplerCtor (nTab spp : ℕ) : Option (ℕ × ℕ) :=
  let adjusted := maxMinAdjustSpp nTab spp
  let Cindex := Log2Int spp
  if Cindex < nTab then some (adjusted, Cindex) else none

/-- Claim C7 (code bug): with the real table size 17, requesting 2^17
samples per pixel makes the constructor emit its clamping warning but
then abort on CHECK(Cindex < 17), because Cindex is computed from the
original request; even the clamped-and-rounded count is 2^17, itself
past the table.  The non-power-of-two in-range path (5 -> 8) does
complete with the rounded count, but the table row is chosen from
Log2Int(5) = 2. -/
theorem maxMinDistSampler_oversized_spp_fatal :
    maxMinDistSamplerCtor 17 131072 = none ∧
      maxMinAdjustSpp 17 131072 = 131072 ∧
      maxMinDistSamplerCtor 17 5 = some (8, 2) := by
  refine ⟨?_, ?_, ?_⟩ <;> decide

/-- Program points of a thread running BufferCache::LookupOrAdd: before
the lock, holding the lock before the probe, about to insert after a
miss, about to release with result r, and finished with result r. -/
inductive TPC where
  | start : TPC
  | locked : TPC
  | inserting : TPC
  | unlocking (r : ℕ) : TPC
  | done (r : ℕ) : TPC
deriving DecidableEq

/-- Global state of n threads sharing one BufferCache: the mutex owner,
each thread's program point, and the shared cache contents. -/
structure SysState (n : ℕ) (α : Type) where
  lock : Option (Fin n)
  pcs : Fin n → TPC
  cache : CacheState α

/-- A thread is inside the mutex-protected critical section. -/
def inCS (pc : TPC) : Prop :=
  pc = TPC.locked ∨ pc = TPC.inserting ∨ ∃ r, pc = TPC.unlocking r

/-- One interleaving step of the system in which every thread calls
LookupOrAdd with the same buffer c: acquiring the free mutex, probing
the map, inserting after a miss, and releasing.  The probe and insert
are verbatim the steps of the sequential lookupOrAdd, performed while
holding the lock. -/
inductive SysStep {n : ℕ} {α : Type} [DecidableEq α] (h : List α → ℕ) (c : List α) :
    SysState n α → SysState n α → Prop
  | acquire (σ : SysState n α) (t : Fin n) :
      σ.pcs t = TPC.start → σ.lock = none →
      SysStep h c σ
        { σ with lock := some t, pcs := Function.update σ.pcs t TPC.locked }
  | findHit (σ : SysState n α) (t : Fin n) (p : ℕ) :
      σ.pcs t = TPC.locked → σ.lock = some t →
      findId σ.cache.cache (bufferId h c) = some p →
      SysStep h c σ
        { σ with
          pcs := Function.update σ.pcs t (TPC.unlocking p),
          cache := { σ.cache with
            lookups := σ.cache.lookups + 1, hits := σ.cache.hits + 1 } }
  | findMiss (σ : SysState n α) (t : Fin n) :
      σ.pcs t = TPC.locked → σ.lock = some t →
      findId σ.cache.cache (bufferId h c) = none →
      SysStep h c σ
        { σ with
          pcs := Function.update σ.pcs t TPC.inserting,
          cache := { σ.cache with lookups := σ.cache.lookups + 1 } }
  | insert (σ : SysState n α) (t : Fin n) :
      σ.pcs t = TPC.inserting → σ.lock = some t →
      SysStep h c σ
        { σ with
          pcs := Function.update σ.pcs t (TPC.unlocking σ.cache.nextPtr),
          cache := { σ.cache with
            cache := (bufferId h c, σ.cache.nextPtr) :: σ.cache.cache,
            store := fun q => if q = σ.cache.nextPtr then c else σ.cache.store q,
            nextPtr := σ.cache.nextPtr + 1 } }
  | release (σ : SysState n α) (t : Fin n) (r : ℕ) :
      σ.pcs t = TPC.unlocking r → σ.lock = some t →
      SysStep h c σ
        { σ with lock := none, pcs := Function.update σ.pcs t (TPC.done r) }

/-- Initial state: lock free, all threads before their call, empty
cache. -/
def sysInit (n : ℕ) (α : Type) : SysState n α :=
  ⟨none, fun _ => TPC.start, emptyCache α⟩

/-- States reachable by interleaving the threads. -/
inductive SysReach {n : ℕ} {α : Type} [DecidableEq α] (h : List α → ℕ) (c : List α) :
    SysState n α → Prop
  | init : SysReach h c (sysInit n α)
  | step (σ σ2 : SysState n α) :
      SysReach h c σ → SysStep h c σ σ2 → SysReach h c σ2

/-- Inductive invariant of the concurrent runs: any thread in the
critical section owns the lock; the cache holds either nothing or
exactly the single entry for c at pointer 0; a thread about to insert
saw a miss that is still valid; and every result ever produced is
pointer 0, with the entry present. -/
structure SysInv {n : ℕ} {α : Type} [DecidableEq α] (h : List α → ℕ) (c : List α)
    (σ : SysState n α) : Prop where
  lockOwn : ∀ t, inCS (σ.pcs t) → σ.lock = some t
  shape : (σ.cache.cache = [] ∧ σ.cache.nextPtr = 0) ∨
    (σ.cache.cache = [(bufferId h c, 0)] ∧ σ.cache.nextPtr = 1 ∧ σ.cache.store 0 = c)
  insEmpty : ∀ t, σ.pcs t = TPC.inserting → σ.cache.cache = []
  resZero : ∀ t r, σ.pcs t = TPC.unlocking r ∨ σ.pcs t = TPC.done r →
    r = 0 ∧ σ.cache.cache = [(bufferId h c, 0)]

lemma findId_single (id : ℕ × ℕ) (p : ℕ) : findId [(id, p)] id = some p := by
  unfold findId
  rw [List.find?_cons_of_pos _ (by simp)]

lemma sysInv_init (n : ℕ) (α : Type) [DecidableEq α] (h : List α → ℕ) (c : List α) :
    SysInv h c (sysInit n α) := by
  refine ⟨?_, Or.inl ⟨rfl, rfl⟩, ?_, ?_⟩
  · intro t hcs
    rcases hcs with h1 | h1 | ⟨r, h1⟩ <;> exact TPC.noConfusion h1
  · intro t hins
    exact TPC.noConfusion hins
  · intro t r hur
    rcases hur with h1 | h1 <;> exact TPC.noConfusion h1

lemma sysInv_step {n : ℕ} {α : Type} [DecidableEq α] (h : List α → ℕ) (c : List α)
    (σ σ2 : SysState n α) (hinv : SysInv h c σ) (hs : SysStep h c σ σ2) :
    SysInv h c σ2 := by
  cases hs with
  | acquire t hpc hlock =>
      refine ⟨?_, hinv.shape, ?_, ?_⟩
      · intro u hcs
        show some t = some u
        by_cases hut : u = t
        · rw [hut]
        · have hcs2 : inCS (Function.update σ.pcs t TPC.locked u) := hcs
          rw [Function.update_noteq hut _ _] at hcs2
          have h2 := hinv.lockOwn u hcs2
          rw [hlock] at h2
          exact Option.noConfusion h2
      · intro u hins
        have hins2 : Function.update σ.pcs t TPC.locked u = TPC.inserting := hins
        by_cases hut : u = t
        · subst hut
          rw [Function.update_same] at hins2
          exact TPC.noConfusion hins2
        · rw [Function.update_noteq hut _ _] at hins2
          exact hinv.insEmpty u hins2
      · intro u r hur
        have hur2 : Function.update σ.pcs t TPC.locked u = TPC.unlocking r ∨
            Function.update σ.pcs t TPC.locked u = TPC.done r := hur
        by_cases hut : u = t
        · subst hut
          rw [Function.update_same] at hur2
          rcases hur2 with h1 | h1 <;> exact TPC.noConfusion h1
        · rw [Function.update_noteq hut _ _] at hur2
          exact hinv.resZero u r hur2
  | findHit t p hpc hlock hf =>
      have hfull : σ.cache.cache = [(bufferId h c, 0)] ∧ σ.cache.nextPtr = 1 ∧
          σ.cache.store 0 = c := by
        rcases hinv.shape with ⟨he, _⟩ | hfull
        · rw [he] at hf
          simp [findId] at hf
        · exact hfull
      have hp0 : p = 0 := by
        rw [hfull.1, findId_single] at hf
        exact (Option.some_inj.mp hf).symm
      refine ⟨?_, Or.inr ⟨hfull.1, hfull.2.1, hfull.2.2⟩, ?_, ?_⟩
      · intro u hcs
        show σ.lock = some u
        by_cases hut : u = t
        · subst hut
          exact hlock
        · have hcs2 : inCS (Function.update σ.pcs t (TPC.unlocking p) u) := hcs
          rw [Function.update_noteq hut _ _] at hcs2
          exact hinv.lockOwn u hcs2
      · intro u hins
        have hins2 : Function.update σ.pcs t (TPC.unlocking p) u = TPC.inserting := hins
        by_cases hut : u = t
        · subst hut
          rw [Function.update_same] at hins2
          exact TPC.noConfusion hins2
        · rw [Function.update_noteq hut _ _] at hins2
          exact hinv.insEmpty u hins2
      · intro u r hur
        have hur2 : Function.update σ.pcs t (TPC.unlocking p) u = TPC.unlocking r ∨
            Function.update σ.pcs t (TPC.unlocking p) u = TPC.done r := hur
        by_cases hut : u = t
        · subst hut
          rw [Function.update_same] at hur2
          rcases hur2 with h1 | h1
          · have hrp : p = r := by injection h1
            exact ⟨by rw [← hrp, hp0], hfull.1⟩
          · exact TPC.noConfusion h1
        · rw [Function.update_noteq hut _ _] at hur2
          exact hinv.resZero u r hur2
  | findMiss t hpc hlock hf =>
      have hempty : σ.cache.cache = [] ∧ σ.cache.nextPtr = 0 := by
        rcases hinv.shape with he | ⟨hfull, _, _⟩
        · exact he
        · rw [hfull, findId_single] at hf
          exact Option.noConfusion hf
      refine ⟨?_, Or.inl ⟨hempty.1, hempty.2⟩, ?_, ?_⟩
      · intro u hcs
        show σ.lock = some u
        by_cases hut : u = t
        · subst hut
          exact hlock
        · have hcs2 : inCS (Function.update σ.pcs t TPC.inserting u) := hcs
          rw [Function.update_noteq hut _ _] at hcs2
          exact hinv.lockOwn u hcs2
      · intro u hins
        exact hempty.1
      · intro u r hur
        have hur2 : Function.update σ.pcs t TPC.inserting u = TPC.unlocking r ∨
            Function.update σ.pcs t TPC.inserting u = TPC.done r := hur
        by_cases hut : u = t
        · subst hut
          rw [Function.update_same] at hur2
          rcases hur2 with h1 | h1 <;> exact TPC.noConfusion h1
        · rw [Function.update_noteq hut _ _] at hur2
          have h2 := (hinv.resZero u r hur2).2
          rw [hempty.1] at h2
          exact List.noConfusion h2
  | insert t hpc hlock =>
      have hem : σ.cache.cache = [] := hinv.insEmpty t hpc
      have hnp : σ.cache.nextPtr = 0 := by
        rcases hinv.shape with ⟨_, hn⟩ | ⟨hfull, _, _⟩
        · exact hn
        · rw [hem] at hfull
          exact List.noConfusion hfull
      have hcache2 : (bufferId h c, σ.cache.nextPtr) :: σ.cache.cache =
          [(bufferId h c, 0)] := by rw [hem, hnp]
      refine ⟨?_, Or.inr ⟨hcache2, by show σ.cache.nextPtr + 1 = 1; rw [hnp], ?_⟩, ?_, ?_⟩
      · intro u hcs
        show σ.lock = some u
        by_cases hut : u = t
        · subst hut
          exact hlock
        · have hcs2 : inCS (Function.update σ.pcs t (TPC.unlocking σ.cache.nextPtr) u) :=
            hcs
          rw [Function.update_noteq hut _ _] at hcs2
          exact hinv.lockOwn u hcs2
      · show (if 0 = σ.cache.nextPtr then c else σ.cache.store 0) = c
        rw [hnp, if_pos rfl]
      · intro u hins
        have hins2 : Function.update σ.pcs t (TPC.unlocking σ.cache.nextPtr) u =
            TPC.inserting := hins
        by_cases hut : u = t
        · subst hut
          rw [Function.update_same] at hins2
          exact TPC.noConfusion hins2
        · rw [Function.update_noteq hut _ _] at hins2
          have h2 := hinv.lockOwn u (Or.inr (Or.inl hins2))
          rw [hlock] at h2
          exact absurd (Option.some_inj.mp h2).symm hut
      · intro u r hur
        have hur2 : Function.update σ.pcs t (TPC.unlocking σ.cache.nextPtr) u =
            TPC.unlocking r ∨
            Function.update σ.pcs t (TPC.unlocking σ.cache.nextPtr) u = TPC.done r := hur
        by_cases hut : u = t
        · subst hut
          rw [Function.update_same] at hur2
          rcases hur2 with h1 | h1
          · have hrp : σ.cache.nextPtr = r := by injection h1
            exact ⟨by rw [← hrp, hnp], hcache2⟩
          · exact TPC.noConfusion h1
        · rw [Function.update_noteq hut _ _] at hur2
          have h2 := (hinv.resZero u r hur2).2
          rw [hem] at h2
          exact List.noConfusion h2
  | release t r hpc hlock =>
      refine ⟨?_, hinv.shape, ?_, ?_⟩
      · intro u hcs
        have hcs2 : inCS (Function.update σ.pcs t (TPC.done r) u) := hcs
        by_cases hut : u = t
        · subst hut
          rw [Function.update_same] at hcs2
          rcases hcs2 with h1 | h1 | ⟨r2, h1⟩ <;> exact TPC.noConfusion h1
        · rw [Function.update_noteq hut _ _] at hcs2
          have h2 := hinv.lockOwn u hcs2
          rw [hlock] at h2
          exact absurd (Option.some_inj.mp h2).symm hut
      · intro u hins
        have hins2 : Function.update σ.pcs t (TPC.done r) u = TPC.inserting := hins
        by_cases hut : u = t
        · subst hut
          rw [Function.update_same] at hins2
          exact TPC.noConfusion hins2
        · rw [Function.update_noteq hut _ _] at hins2
          exact hinv.insEmpty u hins2
      · intro u r2 hur
        have hur2 : Function.update σ.pcs t (TPC.done r) u = TPC.unlocking r2 ∨
            Function.update σ.pcs t (TPC.done r) u = TPC.done r2 := hur
        by_cases hut : u = t
        · subst hut
          rw [Function.update_same] at hur2
          rcases hur2 with h1 | h1
          · exact TPC.noConfusion h1
          · have hrr : r = r2 := by injection h1
            exact hrr ▸ hinv.resZero u r (Or.inl hpc)
        · rw [Function.update_noteq hut _ _] at hur2
          exact hinv.resZero u r2 hur2

lemma sysReach_inv {n : ℕ} {α : Type} [DecidableEq α] (h : List α → ℕ) (c : List α)
    (σ : SysState n α) (hr : SysReach h c σ) : SysInv h c σ := by
  induction hr with
  | init => exact sysInv_init n α h c
  | step σ σ2 hrec hs ih => exact sysInv_step h c σ σ2 ih hs

/-- Claim C5: in the interleaving model of N threads concurrently
calling LookupOrAdd with the same content c on a shared cache protected
by the mutex, whenever all threads have finished, exactly one copy of c
is stored (a single cache entry, at pointer 0, holding c) and every
thread received that same pointer. -/
theorem bufferCache_concurrent_single_copy {n : ℕ} {α : Type} [DecidableEq α]
    (h : List α → ℕ) (c : List α) (σ : SysState n α) (hr : SysReach h c σ)
    (res : Fin n → ℕ) (hdone : ∀ t, σ.pcs t = TPC.done (res t)) (hn : 0 < n) :
    σ.cache.cache = [(bufferId h c, 0)] ∧ σ.cache.store 0 = c ∧ ∀ t, res t = 0 := by
  have hinv := sysReach_inv h c σ hr
  have h0 := hinv.resZero ⟨0, hn⟩ (res ⟨0, hn⟩) (Or.inr (hdone ⟨0, hn⟩))
  refine ⟨h0.2, ?_, fun t => (hinv.resZero t (res t) (Or.inr (hdone t))).1⟩
  rcases hinv.shape with ⟨he, _⟩ | ⟨_, _, hst⟩
  · rw [h0.2] at he
    exact List.noConfusion he
  · exact hst

/-- Witness states: one thread performing LookupOrAdd on the buffer
[5], step by step. -/
def wSys0 : SysState 1 ℕ := sysInit 1 ℕ

def wSys1 : SysState 1 ℕ :=
  { wSys0 with lock := some 0, pcs := Function.update wSys0.pcs 0 TPC.locked }

def wSys2 : SysState 1 ℕ :=
  { wSys1 with
    pcs := Function.update wSys1.pcs 0 TPC.inserting,
    cache := { wSys1.cache with lookups := wSys1.cache.lookups + 1 } }

def wSys3 : SysState 1 ℕ :=
  { wSys2 with
    pcs := Function.update wSys2.pcs 0 (TPC.unlocking wSys2.cache.nextPtr),
    cache := { wSys2.cache with
      cache := (bufferId wCacheHash [5], wSys2.cache.nextPtr) :: wSys2.cache.cache,
      store := fun q => if q = wSys2.cache.nextPtr then [5] else wSys2.cache.store q,
      nextPtr := wSys2.cache.nextPtr + 1 } }

def wSys4 : SysState 1 ℕ :=
  { wSys3 with lock := none, pcs := Function.update wSys3.pcs 0 (TPC.done 0) }

lemma wSys4_reach : SysReach wCacheHash [5] wSys4 :=
  SysReach.step wSys3 wSys4
    (SysReach.step wSys2 wSys3
      (SysReach.step wSys1 wSys2
        (SysReach.step wSys0 wSys1 SysReach.init
          (SysStep.acquire wSys0 0 rfl rfl))
        (SysStep.findMiss wSys1 0 (by decide) rfl rfl))
      (SysStep.insert wSys2 0 (by decide) rfl))
    (SysStep.release wSys3 0 0 (by decide) rfl)

/-- Witness for bufferCache_concurrent_single_copy: a full run of one
thread from the initial state. -/
theorem bufferCache_concurrent_single_copy_witness :
    (∀ t : Fin 1, wSys4.pcs t = TPC.done 0) ∧
      wSys4.cache.cache = [(bufferId wCacheHash [5], 0)] ∧
      wSys4.cache.store 0 = [5] := by
  have hdone : ∀ t : Fin 1, wSys4.pcs t = TPC.done ((fun _ => 0 : Fin 1 → ℕ) t) := by
    decide
  have hmain := bufferCache_concurrent_single_copy wCacheHash [5] wSys4 wSys4_reach
    (fun _ => 0) hdone (by decide)
  exact ⟨hdone, hmain.1, hmain.2.1⟩

end PbrtSpec
